import Mathlib

/-!
Verification of the documentation validation and fix engine of the doctool
repository.

The TypeScript sources are embedded shallowly: documents are lists of
characters (`Str`), JavaScript's `String.prototype.split("\n")` /
`Array.prototype.join("\n")` become `splitLines` / `joinLines`, and each
TypeScript function of interest is translated into a Lean function of the
same name.  File-system and network effects are made explicit: functions
that read the disk take the relevant content or directory listing as an
argument, and a write is returned as an `Option Str` value instead of being
performed.  Character-class tests (`\w`, `\s`) are modelled over ASCII.
-/

namespace Doctool

/-- Documents and strings are lists of characters. -/
abbrev Str := List Char

/-- Convert a Lean string literal into the character-list model. -/
def str (s : String) : Str := s.data

/-- JS `s.split("\n")`: split at every newline; the result is never empty
and an empty input yields one empty line. -/
def splitLines : Str → List Str
  | [] => [[]]
  | c :: rest =>
    if c = '\n' then [] :: splitLines rest
    else
      match splitLines rest with
      | [] => [[c]]
      | l :: ls => (c :: l) :: ls

/-- JS `lines.join("\n")`. -/
def joinLines : List Str → Str
  | [] => []
  | [l] => l
  | l :: l' :: ls => l ++ '\n' :: joinLines (l' :: ls)

theorem splitLines_ne_nil (s : Str) : splitLines s ≠ [] := by
  induction s with
  | nil => simp [splitLines]
  | cons c rest ih =>
    simp only [splitLines]
    split
    · simp
    · split <;> simp

theorem joinLines_splitLines (s : Str) : joinLines (splitLines s) = s := by
  induction s with
  | nil => rfl
  | cons c rest ih =>
    simp only [splitLines]
    split
    · rename_i hc
      subst hc
      rcases h : splitLines rest with _ | ⟨l, ls⟩
      · exact absurd h (splitLines_ne_nil rest)
      · rw [h] at ih
        simpa [joinLines] using ih
    · rcases h : splitLines rest with _ | ⟨l, ls⟩
      · exact absurd h (splitLines_ne_nil rest)
      · rw [h] at ih
        cases ls with
        | nil => simpa [joinLines] using congrArg (c :: ·) ih
        | cons l' ls' => simpa [joinLines] using congrArg (c :: ·) ih

theorem newline_not_mem_splitLines (s : Str) :
    ∀ l ∈ splitLines s, '\n' ∉ l := by
  induction s with
  | nil => simp [splitLines]
  | cons c rest ih =>
    simp only [splitLines]
    split
    · intro l hl
      rw [List.mem_cons] at hl
      rcases hl with hl | hl
      · simp [hl]
      · exact ih l hl
    · rename_i hc
      rcases h : splitLines rest with _ | ⟨l, ls⟩
      · exact absurd h (splitLines_ne_nil rest)
      · rw [h] at ih
        intro m hm
        rw [List.mem_cons] at hm
        rcases hm with hm | hm
        · subst hm
          intro hmem
          rw [List.mem_cons] at hmem
          rcases hmem with hmem | hmem
          · exact hc hmem.symm
          · exact ih l (by simp) hmem
        · exact ih m (by simp [hm])

theorem splitLines_no_newline (l : Str) (h : '\n' ∉ l) : splitLines l = [l] := by
  induction l with
  | nil => rfl
  | cons c rest ih =>
    simp only [splitLines]
    have hc : ¬ c = '\n' := fun hc => h (by simp [hc])
    rw [if_neg hc, ih (fun hm => h (by simp [hm]))]

theorem splitLines_append_newline (l t : Str) (h : '\n' ∉ l) :
    splitLines (l ++ '\n' :: t) = l :: splitLines t := by
  induction l with
  | nil => simp [splitLines]
  | cons c rest ih =>
    have hc : ¬ c = '\n' := fun hc => h (by simp [hc])
    have hrest : '\n' ∉ rest := fun hm => h (List.mem_cons_of_mem _ hm)
    simp only [List.cons_append, splitLines, if_neg hc, List.append_eq, ih hrest]

theorem splitLines_joinLines (L : List Str) (hne : L ≠ [])
    (h : ∀ l ∈ L, '\n' ∉ l) : splitLines (joinLines L) = L := by
  induction L with
  | nil => exact absurd rfl hne
  | cons l ls ih =>
    cases ls with
    | nil => simpa [joinLines] using splitLines_no_newline l (h l (by simp))
    | cons l' ls' =>
      have := splitLines_append_newline l (joinLines (l' :: ls')) (h l (by simp))
      simp only [joinLines, this]
      rw [ih (by simp) (fun m hm => h m (by simp [hm]))]

/-- Does `s` start with `t`?  (JS `s.startsWith(t)`.) -/
def hasStart : Str → Str → Bool
  | _, [] => true
  | [], _ :: _ => false
  | c :: s, d :: t => c == d && hasStart s t

/-- JS `s.includes(t)`: `t` occurs as a contiguous substring of `s`. -/
def containsStr : Str → Str → Bool
  | [], t => hasStart [] t
  | c :: rest, t => hasStart (c :: rest) t || containsStr rest t

/-- ASCII lower-casing of one character (JS `toLowerCase`, ASCII range). -/
def toLowerChar (c : Char) : Char :=
  if 'A' ≤ c ∧ c ≤ 'Z' then Char.ofNat (c.toNat + 32) else c

/-- JS `s.toLowerCase()` over the ASCII model. -/
def toLowerStr (s : Str) : Str := s.map toLowerChar

/-- Whitespace class of the JS regexes (`\s`), ASCII part. -/
def isJsSpace (c : Char) : Bool :=
  c = ' ' || c = '\t' || c = '\n' || c = '\r' || c = '\x0b' || c = '\x0c'

/-- Word-character class of the JS regexes (`\w` = `[A-Za-z0-9_]`). -/
def isWordChar (c : Char) : Bool :=
  ('a' ≤ c && c ≤ 'z') || ('A' ≤ c && c ≤ 'Z') || ('0' ≤ c && c ≤ '9') || c = '_'

/-- JS `s.trim()`: drop leading and trailing whitespace. -/
def trimStr (s : Str) : Str :=
  ((s.dropWhile (fun c => isJsSpace c)).reverse.dropWhile
    (fun c => isJsSpace c)).reverse

/-- JS string comparison `a < b` (lexicographic on code units). -/
def strLt : Str → Str → Bool
  | [], [] => false
  | [], _ :: _ => true
  | _ :: _, [] => false
  | c :: s, d :: t => c.toNat < d.toNat || (c == d && strLt s t)

/-! ## Diff engine (`src/utils/diffUtils.ts`) -/

/-- Line classification of `DiffLine.type`. -/
inductive DiffLineType
  | add
  | remove
  | context
deriving DecidableEq, Repr

/-- `DiffLine` of diffUtils: `lineNumber` is optional (absent on `add`). -/
structure DiffLine where
  type : DiffLineType
  content : Str
  lineNumber : Option Nat := none
deriving DecidableEq, Repr

/-- `FileDiff` of diffUtils. -/
structure FileDiff where
  filePath : Str
  oldContent : Str
  newContent : Str
  lines : List DiffLine
  hasChanges : Bool
deriving DecidableEq, Repr

/-- The DP table of `longestCommonSubsequence`: `lcsLenF a b fuel i j`
computes `dp[i][j]` (LCS length of the first `i` lines of `a` and the first
`j` lines of `b`).  The first argument is fuel for the recursion; `i + j + 1`
always suffices since every call lowers `i + j`. -/
def lcsLenF (a b : List Str) : Nat → Nat → Nat → Nat
  | 0, _, _ => 0
  | _ + 1, 0, _ => 0
  | _ + 1, _ + 1, 0 => 0
  | fuel + 1, i + 1, j + 1 =>
    if a.getD i [] = b.getD j [] then lcsLenF a b fuel i j + 1
    else max (lcsLenF a b fuel i (j + 1)) (lcsLenF a b fuel (i + 1) j)

/-- `dp[i][j]` of the JS `longestCommonSubsequence` table. -/
def lcsLen (a b : List Str) (i j : Nat) : Nat := lcsLenF a b (i + j + 1) i j

/-- The reconstruction loop of `longestCommonSubsequence` (the JS `while
(i > 0 && j > 0)` walk; `unshift` builds the list front-first, modelled by
appending at the end of the recursive result).  Fueled as `lcsLenF`. -/
def lcsRecF (a b : List Str) : Nat → Nat → Nat → List Str
  | 0, _, _ => []
  | _ + 1, 0, _ => []
  | _ + 1, _ + 1, 0 => []
  | fuel + 1, i + 1, j + 1 =>
    if a.getD i [] = b.getD j [] then lcsRecF a b fuel i j ++ [a.getD i []]
    else if lcsLen a b i (j + 1) > lcsLen a b (i + 1) j then
      lcsRecF a b fuel i (j + 1)
    else lcsRecF a b fuel (i + 1) j

/-- `longestCommonSubsequence(arr1, arr2)` of diffUtils. -/
def longestCommonSubsequence (arr1 arr2 : List Str) : List Str :=
  lcsRecF arr1 arr2 (arr1.length + arr2.length + 1) arr1.length arr2.length

/-- The `while (oldIndex < oldLines.length || newIndex < newLines.length)`
loop of `computeDiffLines`, with its three branches in source order.  Each
iteration advances `oldIndex` or `newIndex`, so fuel
`oldLines.length + newLines.length + 1` always suffices from `(0, 0)`; the
two `[]` fallthroughs (fuel exhausted, or no branch applicable) are never
reached. -/
def diffLoop (oldLines newLines lcs : List Str) :
    Nat → Nat → Nat → Nat → List DiffLine
  | 0, _, _, _ => []
  | fuel + 1, oldIndex, newIndex, lcsIndex =>
    if oldIndex < oldLines.length ∨ newIndex < newLines.length then
      if lcsIndex < lcs.length ∧ oldIndex < oldLines.length ∧
          oldLines.getD oldIndex [] = lcs.getD lcsIndex [] then
        ⟨.context, oldLines.getD oldIndex [], some (oldIndex + 1)⟩ ::
          diffLoop oldLines newLines lcs fuel (oldIndex + 1) (newIndex + 1)
            (lcsIndex + 1)
      else if oldIndex < oldLines.length ∧
          (lcs.length ≤ lcsIndex ∨ ¬ oldLines.getD oldIndex [] = lcs.getD lcsIndex []) then
        ⟨.remove, oldLines.getD oldIndex [], some (oldIndex + 1)⟩ ::
          diffLoop oldLines newLines lcs fuel (oldIndex + 1) newIndex lcsIndex
      else if newIndex < newLines.length then
        ⟨.add, newLines.getD newIndex [], none⟩ ::
          diffLoop oldLines newLines lcs fuel oldIndex (newIndex + 1) lcsIndex
      else []
    else []

/-- `computeDiffLines(oldLines, newLines)` of diffUtils. -/
def computeDiffLines (oldLines newLines : List Str) : List DiffLine :=
  diffLoop oldLines newLines (longestCommonSubsequence oldLines newLines)
    (oldLines.length + newLines.length + 1) 0 0 0

/-- `generateDiff(oldContent, newContent, filePath)` of diffUtils. -/
def generateDiff (oldContent newContent : Str) (filePath : Str) : FileDiff :=
  let oldLines := splitLines oldContent
  let newLines := splitLines newContent
  let diffLines := computeDiffLines oldLines newLines
  { filePath := filePath
    oldContent := oldContent
    newContent := newContent
    lines := diffLines
    hasChanges := diffLines.any (fun line => ¬ line.type = .context) }

/-- Replaying a diff against the old text, in the words of the spec: keep
`context` lines, delete `remove` lines and insert `add` lines, in emitted
order.  This definition follows the claim's wording, to be compared with
what `generateDiff` emits. -/
def replayDiffLines (lines : List DiffLine) : List Str :=
  lines.filterMap (fun l => if l.type = .remove then none else some l.content)

/-! ## Markdown section parsing (`parseMarkdownSections` of diffUtils) -/

/-- `ContentSection` of diffUtils. -/
structure ContentSection where
  heading : Str
  content : Str
  startLine : Nat
  endLine : Nat
  level : Nat
deriving DecidableEq, Repr

/-- The regex `^(#{1,6})\s+(.+)$` applied to one line: `some (level, text)`
on a heading line.  The greedy `\s+` takes the whole whitespace run; when
nothing is left for `(.+)` it backtracks one character, so a line of hashes
followed only by whitespace captures the run's final character. -/
def headingMatch (line : Str) : Option (Nat × Str) :=
  let hashes := line.takeWhile (fun c => c = '#')
  let rest := line.dropWhile (fun c => c = '#')
  if 1 ≤ hashes.length ∧ hashes.length ≤ 6 then
    let ws := rest.takeWhile (fun c => isJsSpace c)
    let t := rest.dropWhile (fun c => isJsSpace c)
    if ws.length = 0 then none
    else if ¬ t = [] then some (hashes.length, t)
    else if 2 ≤ ws.length then some (hashes.length, [ws.getLastD ' '])
    else none
  else none

/-- Is the line an ATX heading in the sense of `parseMarkdownSections`? -/
def isHeadingLine (line : Str) : Bool := (headingMatch line).isSome

/-- The scanning loop of `parseMarkdownSections`: `cur` is the open section
`(heading, startLine, level)`; a new heading at index `i` closes it with
`endLine = i - 1` and content `lines.slice(startLine, i).join("\n")`; the
last open section is closed at the end with `endLine = lines.length - 1`
and content `lines.slice(startLine).join("\n")`. -/
def parseSectionsLoop (lines : List Str) :
    Nat → List Str → Option (Str × Nat × Nat) → List ContentSection
  | _, [], cur =>
    match cur with
    | none => []
    | some (h, s, lvl) =>
      [⟨h, joinLines (lines.drop s), s, lines.length - 1, lvl⟩]
  | i, line :: rest, cur =>
    match headingMatch line with
    | none => parseSectionsLoop lines (i + 1) rest cur
    | some (lvl, htext) =>
      match cur with
      | none => parseSectionsLoop lines (i + 1) rest (some (htext, i, lvl))
      | some (h, s, plvl) =>
        ⟨h, joinLines ((lines.drop s).take (i - s)), s, i - 1, plvl⟩ ::
          parseSectionsLoop lines (i + 1) rest (some (htext, i, lvl))

/-- `parseMarkdownSections(content)` of diffUtils. -/
def parseMarkdownSections (content : Str) : List ContentSection :=
  let lines := splitLines content
  parseSectionsLoop lines 0 lines none

/-! ## Documentation issues (`src/utils/documentationIssues.ts`) -/

/-- Issue severity. -/
inductive Severity
  | low
  | medium
  | high
deriving DecidableEq, Repr

/-- The numeric severity order of documentationFixer
(`{ low: 0, medium: 1, high: 2 }`). -/
def severityLevels : Severity → Nat
  | .low => 0
  | .medium => 1
  | .high => 2

/-- `DocumentationIssue.type`. -/
inductive IssueType
  | missingFiles
  | outdatedDescriptions
  | missingSections
  | placeholderContent
  | inconsistentStructure
deriving DecidableEq, Repr

/-- `DocumentationIssue.suggestedFix.action`. -/
inductive FixAction
  | addSection
  | updateContent
  | addFiles
  | removePlaceholder
deriving DecidableEq, Repr

/-- `DocumentationIssue.suggestedFix`. -/
structure SuggestedFix where
  action : FixAction
  content : Option Str := none
  target : Option Str := none
deriving DecidableEq, Repr

/-- `DocumentationIssue.location` (optional section/line). -/
structure IssueLocation where
  section? : Option Str := none
  line : Option Nat := none
deriving DecidableEq, Repr

/-- `DocumentationIssue` of documentationIssues. -/
structure DocumentationIssue where
  type : IssueType
  severity : Severity
  description : Str
  location : Option IssueLocation := none
  suggestedFix : SuggestedFix
deriving DecidableEq, Repr

/-- Possible values of `DocumentationAnalysis.overallHealth`. -/
inductive Health
  | good
  | needsAttention
  | poor
deriving DecidableEq, Repr

/-- The health determination step of `analyzeDocumentationIssues` (its final
lines): counts of high and medium severity issues decide `poor`,
`needs_attention` or `good`. -/
def computeOverallHealth (issues : List DocumentationIssue) : Health :=
  let highIssues := (issues.filter (fun i => i.severity = .high)).length
  let mediumIssues := (issues.filter (fun i => i.severity = .medium)).length
  if highIssues > 0 ∨ mediumIssues > 3 then .poor
  else if mediumIssues > 0 ∨ issues.length > 2 then .needsAttention
  else .good

/-! ## Fix engine (`src/utils/documentationFixer.ts`) -/

/-- The backtick character, extracted from a string literal. -/
def backtickChar : Char := (str "`").getD 0 ' '

/-- JS `list.join(sep)` with a separator string. -/
def joinWith (sep : Str) : List Str → Str
  | [] => []
  | [x] => x
  | x :: y :: rest => x ++ sep ++ joinWith sep (y :: rest)

/-- `FixResult` of documentationFixer. -/
structure FixResult where
  issue : DocumentationIssue
  applied : Bool
  reason : Option Str := none
  changes : Option Str := none
deriving DecidableEq, Repr

/-- `FixSummary` of documentationFixer. -/
structure FixSummary where
  filePath : Str
  totalIssues : Nat
  fixesApplied : Nat
  fixesSkipped : Nat
  results : List FixResult
deriving DecidableEq, Repr

/-- The options record of `applyDocumentationFixes`, with its defaults. -/
structure FixOptions where
  dryRun : Bool := false
  severityThreshold : Severity := .medium
  autoApprove : Bool := true
deriving DecidableEq, Repr

/-- The scanning loop of `addFileToDocumentation`: walks the lines tracking
`filesSectionIndex` (last line whose trim is `### Files`) and stops at the
first insertion point found while inside the files section (blank line, next
`### `/`## ` heading, or an alphabetically later `- \x60...\x60` bullet,
compared with JS string `>`).  Returns
`(filesSectionIndex, insertIndex)`. -/
def addFileScan (fileName : Str) :
    Nat → List Str → Option Nat → Option Nat × Option Nat
  | _, [], fsi => (fsi, none)
  | i, line :: rest, fsi =>
    if trimStr line = str "### Files" then
      addFileScan fileName (i + 1) rest (some i)
    else if fsi.isSome then
      if trimStr line = [] ∨ hasStart line (str "### ") ∨ hasStart line (str "## ") then
        (fsi, some i)
      else if hasStart line (str "- `") ∧
          strLt (str "- `" ++ fileName ++ str "`") line then
        (fsi, some i)
      else addFileScan fileName (i + 1) rest fsi
    else addFileScan fileName (i + 1) rest fsi

/-- `addFileToDocumentation(content, issue)` of documentationFixer.  When no
`### Files` heading exists but `## Contents` does, a files sub-section is
synthesized below `## Contents`; otherwise the bullet is spliced at the
insertion point (end of the lines when the files section never ended). -/
def addFileToDocumentation (content : Str) (issue : DocumentationIssue) : Str :=
  let fileName := issue.suggestedFix.target.getD []
  let description := issue.suggestedFix.content.getD []
  let lines := splitLines content
  let scan := addFileScan fileName 0 lines none
  let filesSectionIndex := scan.1
  let insertIndex :=
    if filesSectionIndex.isSome ∧ scan.2 = none then some lines.length else scan.2
  let entry := str "- `" ++ fileName ++ str "` - " ++ description
  match filesSectionIndex,
      lines.findIdx? (fun line => trimStr line = str "## Contents") with
  | none, some contentsIndex =>
    joinLines (lines.take (contentsIndex + 1) ++
      ([] :: str "### Files" :: entry :: [[]]) ++ lines.drop (contentsIndex + 1))
  | _, _ =>
    match insertIndex with
    | some idx => joinLines (lines.take idx ++ entry :: lines.drop idx)
    | none => joinLines lines

/-- The canonical section order of `addMissingSection`. -/
def sectionOrder : List Str :=
  [str "Overview", str "Contents", str "Purpose", str "Key Components",
   str "Dependencies", str "Notes"]

/-- The inner loop of `addMissingSection`: the first canonical section after
the one being added that already exists in the document, as a line index. -/
def findLaterSectionIdx (lines : List Str) : List Str → Option Nat
  | [] => none
  | nextSection :: restOrder =>
    match lines.findIdx? (fun line => trimStr line = str "## " ++ nextSection) with
    | some idx => some idx
    | none => findLaterSectionIdx lines restOrder

/-- `addMissingSection(content, issue)` of documentationFixer. -/
def addMissingSection (content : Str) (issue : DocumentationIssue) : Str :=
  let sectionContent := issue.suggestedFix.content.getD []
  let sectionName := issue.suggestedFix.target.getD []
  let lines := splitLines content
  let insertIndex :=
    match sectionOrder.findIdx? (fun n => n = sectionName) with
    | some sectionIndex => findLaterSectionIdx lines (sectionOrder.drop (sectionIndex + 1))
    | none => none
  let finalIndex :=
    match insertIndex with
    | some idx => idx
    | none =>
      match lines.findIdx? (fun line => trimStr line = str "---") with
      | some footerIndex => footerIndex
      | none => lines.length
  let sectionLines := splitLines sectionContent
  joinLines (lines.take finalIndex ++ ([] :: sectionLines) ++ lines.drop finalIndex)

/-- Capture group 1 of the regex `^(- \x60[^\x60]+\x60 - ).+$` of
`updateFileDescription` (backtick written `\x60`): `some` of the
`- \x60name\x60 - ` line prefix when the line matches. -/
def descrBulletMatch (line : Str) : Option Str :=
  if hasStart line (str "- `") then
    let afterDash := line.drop 3
    let name := afterDash.takeWhile (fun c => ¬ c = backtickChar)
    let rest := afterDash.drop name.length
    if 1 ≤ name.length ∧ hasStart rest (str "` - ") ∧ 5 ≤ rest.length then
      some (str "- `" ++ name ++ str "` - ")
    else none
  else none

/-- The line loop of `updateFileDescription`: rewrite the first line that
contains `` \x60fileName\x60 `` and matches the bullet regex, leaving all
later lines untouched (the JS `break`); a line that contains the filename but
does not match the regex is skipped and scanning continues. -/
def updateDescLoop (fileName newDescription : Str) : List Str → List Str
  | [] => []
  | line :: rest =>
    if containsStr line (str "`" ++ fileName ++ str "`") then
      match descrBulletMatch line with
      | some px => (px ++ newDescription) :: rest
      | none => line :: updateDescLoop fileName newDescription rest
    else line :: updateDescLoop fileName newDescription rest

/-- `updateFileDescription(content, issue)` of documentationFixer. -/
def updateFileDescription (content : Str) (issue : DocumentationIssue) : Str :=
  let fileName := issue.suggestedFix.target.getD []
  let newDescription := issue.suggestedFix.content.getD []
  joinLines (updateDescLoop fileName newDescription (splitLines content))

/-- JS `s.replace(t, r)` with a plain string pattern: replace the first
(leftmost) occurrence of `t` only; `s` is returned unchanged when `t` does
not occur. -/
def replaceFirst : Str → Str → Str → Str
  | [], t, r => if hasStart [] t then r else []
  | c :: rest, t, r =>
    if hasStart (c :: rest) t then r ++ (c :: rest).drop t.length
    else c :: replaceFirst rest t r

/-- `removePlaceholderContent(content, issue)` of documentationFixer: a
bracketed description placeholder is replaced (first occurrence) by the
generic marker; any other target deletes every line containing it. -/
def removePlaceholderContent (content : Str) (issue : DocumentationIssue) : Str :=
  let placeholder := issue.suggestedFix.target.getD []
  if hasStart placeholder (str "[") ∧ containsStr placeholder (str "description") then
    replaceFirst content placeholder (str "Content to be documented")
  else
    joinLines ((splitLines content).filter (fun line => ¬ containsStr line placeholder))

/-- `applyIssuseFix(issue, content, options)` of documentationFixer (source
spelling kept).  The `options` record is accepted but never consulted: the
interactive-approval branch of the source is an empty stub.  A transform that
produces no textual change yields `applied = false` with the source's
reason. -/
def applyIssuseFix (issue : DocumentationIssue) (content : Str)
    (options : FixOptions) : FixResult :=
  let modifiedContent :=
    match issue.suggestedFix.action with
    | .addFiles => addFileToDocumentation content issue
    | .addSection => addMissingSection content issue
    | .updateContent => updateFileDescription content issue
    | .removePlaceholder => removePlaceholderContent content issue
  if modifiedContent = content then
    { issue := issue, applied := false, reason := some (str "No changes would be made") }
  else
    { issue := issue, applied := true, changes := some modifiedContent }

/-- The `for (const issue of sortedIssues)` loop of
`applyDocumentationFixes`: collect one `FixResult` per issue, threading the
modified content; the JS guard `result.applied && result.changes` treats the
empty string as falsy, which is modelled by the `¬ ch = []` test. -/
def applyFixesLoop (options : FixOptions) :
    List DocumentationIssue → Str → List FixResult × Str
  | [], modifiedContent => ([], modifiedContent)
  | issue :: rest, modifiedContent =>
    let result := applyIssuseFix issue modifiedContent options
    let changesTruthy : Bool :=
      match result.changes with
      | some ch => ¬ ch.isEmpty
      | none => false
    let newContent :=
      if result.applied && changesTruthy then result.changes.getD modifiedContent
      else modifiedContent
    let next := applyFixesLoop options rest newContent
    (result :: next.1, next.2)

/-- Stable insertion of `x` into `l` under the Boolean comparator `le`:
`x` is placed before the first element `y` with `le x y`, so elements that
compare equal keep their original relative order. -/
def sortInsert {α : Type} (le : α → α → Bool) (x : α) : List α → List α
  | [] => [x]
  | y :: l => if le x y then x :: y :: l else y :: sortInsert le x l

/-- Stable insertion sort under the Boolean comparator `le`.  For a
consistent comparator a stable sort's result is unique, so this models
ES2019's stable `Array.prototype.sort`. -/
def stableSort {α : Type} (le : α → α → Bool) : List α → List α
  | [] => []
  | x :: l => sortInsert le x (stableSort le l)

/-- `applyDocumentationFixes(analysis, options)` of documentationFixer.
File I/O is explicit: `content` is the on-disk text `fs.readFileSync` would
return (a read failure yields `''`, i.e. the caller passes `[]`), and the
second component of the result is the write `fs.writeFileSync` would perform
(`none` when nothing is written).  `Array.prototype.sort` is stable
(ES2019) and the severity comparator is consistent, so the sort is modelled
by the stable `stableSort` under the comparator's non-strict order. -/
def applyDocumentationFixes (content : Str) (filePath : Str)
    (analysisIssues : List DocumentationIssue) (options : FixOptions) :
    FixSummary × Option Str :=
  let threshold := severityLevels options.severityThreshold
  let issuesToFix := analysisIssues.filter
    (fun issue => threshold ≤ severityLevels issue.severity)
  let sortedIssues := stableSort
    (fun a b => severityLevels b.severity ≤ severityLevels a.severity) issuesToFix
  let loop := applyFixesLoop options sortedIssues content
  let results := loop.1
  let modifiedContent := loop.2
  let write :=
    if ¬ options.dryRun ∧ ¬ modifiedContent = content then some modifiedContent
    else none
  ({ filePath := filePath
     totalIssues := analysisIssues.length
     fixesApplied := (results.filter (fun r => r.applied)).length
     fixesSkipped := (results.filter (fun r => ¬ r.applied)).length
     results := results }, write)

/-! ## Filesystem oracle (`fileSystemValidator.ts`) -/

/-- `ValidationIssue.type` of fileSystemValidator. -/
inductive VIssueType
  | missingFile
  | missingDirectory
  | invalidPath
  | directoryMismatch
deriving DecidableEq, Repr

/-- `ValidationIssue.severity` of fileSystemValidator. -/
inductive VSeverity
  | error
  | warning
  | info
deriving DecidableEq, Repr

/-- `FileReference.type` of fileSystemValidator. -/
inductive PathType
  | file
  | directory
  | unknown
deriving DecidableEq, Repr

/-- `ValidationIssue` of fileSystemValidator; the `location` and
`file_reference` fields, which merely echo the inputs, are not modelled. -/
structure ValidationIssue where
  type : VIssueType
  severity : VSeverity
  message : Str
  suggestion : Option Str := none
deriving DecidableEq, Repr

/-- Kind of an existing file-system entry as seen by `fs.statSync`. -/
inductive FsKind
  | file
  | directory
  | other
deriving DecidableEq, Repr

/-- `path.basename` for the simple relative paths the validator handles:
trailing slashes dropped, then the part after the last `/`. -/
def basename (p : Str) : Str :=
  let q := (p.reverse.dropWhile (fun c => c = '/')).reverse
  (q.reverse.takeWhile (fun c => ¬ c = '/')).reverse

/-- `suggestFileAlternatives(missingPath, basePath)` of fileSystemValidator.
The `fs.readdirSync` listing of the missing path's directory is passed in as
`files`, and `fileName` is `path.basename(missingPath)`; a listing failure
corresponds to `files = []` (no name matches, generic message).  Matching is
a case-insensitive substring test in either direction on the full base name,
extension included. -/
def suggestFileAlternatives (files : List Str) (fileName : Str) : Str :=
  let similar := files.filter (fun file =>
    containsStr (toLowerStr file) (toLowerStr fileName) ||
    containsStr (toLowerStr fileName) (toLowerStr file))
  if ¬ similar = [] then
    str "Did you mean: " ++ joinWith (str ", ") (similar.take 3) ++ str "?"
  else
    str "Check if the file path is correct and the file exists."

/-- `suggestDirectoryAlternatives(missingPath, basePath)` of
fileSystemValidator; `dirs` is the listing of the parent directory filtered
to directories, `dirName` is `path.basename(missingPath)`. -/
def suggestDirectoryAlternatives (dirs : List Str) (dirName : Str) : Str :=
  let similar := dirs.filter (fun dir =>
    containsStr (toLowerStr dir) (toLowerStr dirName) ||
    containsStr (toLowerStr dirName) (toLowerStr dir))
  if ¬ similar = [] then
    str "Did you mean: " ++ joinWith (str ", ") (similar.take 3) ++ str "?"
  else
    str "Check if the directory path is correct and the directory exists."

/-- `validateFileReference(fileRef, docFilePath)` of fileSystemValidator with
the file system explicit: `stat` is what `fs.statSync` finds at the resolved
path (`none` models the throw on a missing target), and `dirListing` is the
sibling-directory listing the suggestion helpers would read. -/
def validateFileReference (refPath : Str) (refType : PathType)
    (stat : Option FsKind) (dirListing : List Str) : List ValidationIssue :=
  match stat with
  | some k =>
    if refType = .file ∧ ¬ k = .file then
      [{ type := .directoryMismatch, severity := .warning
         message := str "Expected file but found directory: " ++ refPath
         suggestion := some (str "Update documentation to reference " ++ refPath ++
           str "/ as a directory") }]
    else if refType = .directory ∧ ¬ k = .directory then
      [{ type := .directoryMismatch, severity := .warning
         message := str "Expected directory but found file: " ++ refPath
         suggestion := some (str "Update documentation to reference " ++ refPath ++
           str " as a file") }]
    else []
  | none =>
    if refType = .file then
      [{ type := .missingFile, severity := .error
         message := str "File not found: " ++ refPath
         suggestion := some (suggestFileAlternatives dirListing (basename refPath)) }]
    else if refType = .directory then
      [{ type := .missingDirectory, severity := .error
         message := str "Directory not found: " ++ refPath
         suggestion := some (suggestDirectoryAlternatives dirListing (basename refPath)) }]
    else []

/-! ## Reference extraction (`extractFileReferences` of fileSystemValidator.ts)

The four per-line regex passes are modelled by character-level matchers: a
matcher reads a suffix of the line and returns the number of characters the
regex match consumes together with the captured data.  The JS
`while ((match = re.exec(line)) !== null)` loop, which advances `lastIndex`
to the end of each match (and which in general only terminates because
every match of these particular regexes consumes at least one character),
is modelled by the fueled `execLoop`. -/

/-- `DocumentationLocation` of fileSystemValidator. -/
structure DocumentationLocation where
  file : Str
  line : Nat
  column : Option Nat := none
  context : Str
deriving DecidableEq, Repr

/-- `FileReference` of fileSystemValidator (`exists` is spelled `exists_`;
`resolution` is filled in later by the oracle and starts out false/none). -/
structure FileReference where
  path : Str
  type : PathType
  mentioned_in : DocumentationLocation
  exists_ : Bool
  resolved_path : Option Str := none
deriving DecidableEq, Repr

/-- JS `s.endsWith(t)`. -/
def endsWithStr (s t : Str) : Bool := hasStart s.reverse t.reverse

/-- `isUrl(text)` of fileSystemValidator. -/
def isUrl (text : Str) : Bool :=
  hasStart text (str "http://") || hasStart text (str "https://") ||
    hasStart text (str "ftp://")

/-- `isMailto(text)` of fileSystemValidator. -/
def isMailto (text : Str) : Bool := hasStart text (str "mailto:")

/-- Node `path.extname(p)` for the simple paths the extractor handles: the
suffix of the part after the last `/` from its last dot, empty when there is
no dot or when the only/last dot is the leading character (dotfiles). -/
def extname (p : Str) : Str :=
  let base := (p.reverse.takeWhile (fun c => ¬ c = '/')).reverse
  let k := base.reverse.takeWhile (fun c => ¬ c = '.')
  if k.length = base.length then []
  else if k.length + 1 = base.length then []
  else '.' :: k.reverse

/-- `guessPathType(filePath)` of fileSystemValidator. -/
def guessPathType (filePath : Str) : PathType :=
  if endsWithStr filePath (str "/") then .directory
  else if ¬ extname filePath = [] ∨
      (hasStart filePath (str ".") ∧ containsStr filePath (str ".")) then .file
  else if containsStr filePath (str "/") ∧ ¬ containsStr filePath (str ".") then
    .directory
  else if containsStr filePath (str ".") then .file
  else .unknown

/-- `looksLikeFilePath(text)` of fileSystemValidator. -/
def looksLikeFilePath (text : Str) : Bool :=
  (containsStr text (str "/") || containsStr text (str ".")) &&
    decide (2 < text.length) && !(containsStr text (str " ")) && !(isUrl text)

/-- `looksLikeDirectoryPath(text)` of fileSystemValidator. -/
def looksLikeDirectoryPath (text : Str) : Bool :=
  containsStr text (str "/") && !(containsStr text (str ".")) &&
    !(containsStr text (str " ")) && decide (2 < text.length)

/-- The leftmost match scan of a JS regex: try the match at positions `σ`,
`σ + 1`, … until the per-position matcher succeeds; `matchAt σ` returns the
absolute end position of the match and its captures.  Fuel
`lineLength + 1 - σ` always suffices. -/
def scanPositions {κ : Type} (matchAt : Nat → Option (Nat × κ)) :
    Nat → Nat → Option (Nat × Nat × κ)
  | 0, _ => none
  | fuel + 1, σ =>
    match matchAt σ with
    | some (me, k) => some (σ, me, k)
    | none => scanPositions matchAt fuel (σ + 1)

/-- Leftmost match at a position ≥ `p` within a line of length `n`. -/
def findFromM {κ : Type} (matchAt : Nat → Option (Nat × κ)) (n p : Nat) :
    Option (Nat × Nat × κ) :=
  scanPositions matchAt (n + 1 - p) p

/-- The `while ((match = re.exec(line)) !== null)` loop with the `g` flag:
after each match, searching resumes at the match end (`lastIndex`).  JS
would loop forever on a zero-width match; the fuel makes the model total,
and the C8 theorems show `lineLength + 1` fuel is always enough because
every match of the four extraction regexes consumes at least one
character. -/
def execLoop {κ : Type} (findFrom : Nat → Option (Nat × Nat × κ)) :
    Nat → Nat → List (Nat × Nat × κ)
  | 0, _ => []
  | fuel + 1, lastIndex =>
    match findFrom lastIndex with
    | none => []
    | some (ms, me, k) => (ms, me, k) :: execLoop findFrom fuel me

/-- Pass 1, the regex `\[([^\]]*)\]\(([^)]+)\)` on a line suffix: `[`, a
(possibly empty) run of non-`]`, `]`, `(`, a nonempty run of non-`)`, `)`.
Both character classes exclude their closing delimiter, so the greedy runs
never backtrack.  Returns (consumed, (text, target)). -/
def matchMarkdownLink : Str → Option (Nat × (Str × Str))
  | '[' :: rest =>
    let text := rest.takeWhile (fun c => ¬ c = ']')
    (match rest.drop text.length with
     | ']' :: '(' :: rest3 =>
       let target := rest3.takeWhile (fun c => ¬ c = ')')
       if target.length = 0 then none
       else
         match rest3.drop target.length with
         | ')' :: _ => some (1 + text.length + 2 + target.length + 1, (text, target))
         | _ => none
     | _ => none)
  | _ => none

/-- Pass 1 matcher at an absolute position of the line. -/
def matchMarkdownLinkAt (line : Str) (σ : Nat) : Option (Nat × (Str × Str)) :=
  (matchMarkdownLink (line.drop σ)).map (fun r => (σ + r.1, r.2))

/-- Pass 2, the regex `\x60([^\x60]+)\x60` (backticks written `\x60`) on a
line suffix: a backtick, a nonempty run of non-backticks, a backtick (the
run is maximal, so the character after it can only be a backtick or the end
of the line). -/
def matchCodeSpan : Str → Option (Nat × Str)
  | c :: rest =>
    if c = backtickChar then
      let code := rest.takeWhile (fun d => ¬ d = backtickChar)
      if code.length = 0 then none
      else
        match rest.drop code.length with
        | _ :: _ => some (1 + code.length + 1, code)
        | [] => none
    else none
  | [] => none

/-- Pass 2 matcher at an absolute position of the line. -/
def matchCodeSpanAt (line : Str) (σ : Nat) : Option (Nat × Str) :=
  (matchCodeSpan (line.drop σ)).map (fun r => (σ + r.1, r.2))

/-- The character class `[\w\-.]` of the directory regex. -/
def isDirWordChar (c : Char) : Bool := isWordChar c || c = '-' || c = '.'

/-- The lookahead `(?=\s|$|[,.])` of the directory regex. -/
def dirLookahead : Str → Bool
  | [] => true
  | c :: _ => isJsSpace c || c = ',' || c = '.'

/-- Greedy-with-backtracking `[\w\-.]+`: try munch lengths from `k` down to
1, continuing with `next` on the rest; the first success wins (the regex
engine shortens a greedy run only until the continuation matches). -/
def tryMunch (next : Str → Option Nat) (cs : Str) : Nat → Option Nat
  | 0 => none
  | k + 1 =>
    match next (cs.drop (k + 1)) with
    | some m => some (k + 1 + m)
    | none => tryMunch next cs k

/-- The tail `(?:\/[\w\-.]+)*\/?(?=\s|$|[,.])` of the directory regex with
the backtracking order of the engine: prefer consuming another `/`-segment
(its `[\w\-.]+` greedy), then the optional final `/`, then the bare
lookahead.  Fuel `cs.length + 1` always suffices: every recursion consumes a
slash and at least one class character. -/
def parseStarF : Nat → Str → Option Nat
  | 0, _ => none
  | fuel + 1, cs =>
    match cs with
    | [] => if dirLookahead [] then some 0 else none
    | c0 :: cs' =>
      if c0 = '/' then
        match tryMunch (fun s => parseStarF fuel s) cs'
            (cs'.takeWhile (fun c => isDirWordChar c)).length with
        | some m => some (1 + m)
        | none =>
          if dirLookahead cs' then some 1
          else if dirLookahead (c0 :: cs') then some 0
          else none
      else if dirLookahead (c0 :: cs') then some 0 else none

/-- The capture `([\w\-.]+(?:\/[\w\-.]+)*\/?)` with its lookahead, on a line
suffix: number of characters captured. -/
def parseDirCapture (cs : Str) : Option Nat :=
  tryMunch (fun s => parseStarF (cs.length + 1) s) cs
    (cs.takeWhile (fun c => isDirWordChar c)).length

/-- The `(?:^|\s)` prefix shared by passes 3 and 4: at position 0 the `^`
alternative (consuming nothing) is tried first; everywhere a whitespace
character at the match start is consumed and the payload parsed after it.
`parseAt q` returns the absolute match end and the payload of a match whose
capture starts at `q`. -/
def withLinePrefix {κ : Type} (parseAt : Nat → Option (Nat × κ)) (line : Str)
    (σ : Nat) : Option (Nat × κ) :=
  match (if σ = 0 then parseAt 0 else none) with
  | some r => some r
  | none =>
    match line.drop σ with
    | c :: _ => if isJsSpace c then parseAt (σ + 1) else none
    | [] => none

/-- Pass 3, the regex `(?:^|\s)([\w\-.]+(?:\/[\w\-.]+)*\/?)(?=\s|$|[,.])`:
absolute matcher returning the match end and the captured path. -/
def matchDirAt (line : Str) (σ : Nat) : Option (Nat × Str) :=
  withLinePrefix
    (fun q =>
      match parseDirCapture (line.drop q) with
      | some k => some (q + k, (line.drop q).take k)
      | none => none)
    line σ

/-- The ordered alternation of well-known filenames of pass 4. -/
def commonFileNames : List Str :=
  [str "package.json", str ".env", str ".gitignore", str "Dockerfile",
   str "Makefile", str "README.md", str "LICENSE", str "tsconfig.json",
   str ".npmrc", str ".editorconfig"]

/-- First literal of the ordered alternation that starts the suffix. -/
def matchCommonLit : List Str → Str → Option Str
  | [], _ => none
  | lit :: rest, cs => if hasStart cs lit then some lit else matchCommonLit rest cs

/-- The capture `((?:package\.json|…)(?:\s|$|[,.])?)` of pass 4 on a line
suffix: a literal filename, then optionally one whitespace/comma/period
character (the `$` alternative consumes nothing at the end of the line).
Returns (consumed, capture). -/
def matchCommonAt0 (cs : Str) : Option (Nat × Str) :=
  match matchCommonLit commonFileNames cs with
  | none => none
  | some lit =>
    match cs.drop lit.length with
    | [] => some (lit.length, lit)
    | d :: _ =>
      if isJsSpace d || d = ',' || d = '.' then some (lit.length + 1, lit ++ [d])
      else some (lit.length, lit)

/-- Pass 4 matcher at an absolute position of the line. -/
def matchCommonAt (line : Str) (σ : Nat) : Option (Nat × Str) :=
  withLinePrefix (fun q => (matchCommonAt0 (line.drop q)).map
    (fun r => (q + r.1, r.2))) line σ

/-- The trailing-punctuation strip `replace(/[,.\s]+$/, '')` of pass 4. -/
def stripTrailingPunct (s : Str) : Str :=
  (s.reverse.dropWhile (fun c => isJsSpace c || c = ',' || c = '.')).reverse

/-- Pass 1 of `extractFileReferences` on one line: markdown links, minus
URL/mailto targets; `linkPath` is `match[2].split(' ')[0]` and the column is
the match start. -/
def linkRefsOfLine (sourceFile : Str) (lineIndex : Nat) (line : Str)
    (fuel : Nat) : List FileReference :=
  (execLoop (findFromM (matchMarkdownLinkAt line) line.length) fuel 0).filterMap
    (fun m =>
      let linkPath := m.2.2.2.takeWhile (fun c => ¬ c = ' ')
      if isUrl linkPath || isMailto linkPath then none
      else
        some { path := linkPath, type := guessPathType linkPath
               mentioned_in := { file := sourceFile, line := lineIndex + 1
                                 column := some m.1, context := trimStr line }
               exists_ := false })

/-- Pass 2 of `extractFileReferences` on one line: code spans that look like
paths. -/
def codeRefsOfLine (sourceFile : Str) (lineIndex : Nat) (line : Str)
    (fuel : Nat) : List FileReference :=
  (execLoop (findFromM (matchCodeSpanAt line) line.length) fuel 0).filterMap
    (fun m =>
      if looksLikeFilePath m.2.2 then
        some { path := m.2.2, type := guessPathType m.2.2
               mentioned_in := { file := sourceFile, line := lineIndex + 1
                                 column := some m.1, context := trimStr line }
               exists_ := false }
      else none)

/-- Pass 3 of `extractFileReferences` on one line: bare directory
mentions. -/
def dirRefsOfLine (sourceFile : Str) (lineIndex : Nat) (line : Str)
    (fuel : Nat) : List FileReference :=
  (execLoop (findFromM (matchDirAt line) line.length) fuel 0).filterMap
    (fun m =>
      if looksLikeDirectoryPath m.2.2 && decide (2 < m.2.2.length) then
        some { path := m.2.2, type := PathType.directory
               mentioned_in := { file := sourceFile, line := lineIndex + 1
                                 column := some m.1, context := trimStr line }
               exists_ := false }
      else none)

/-- Pass 4 of `extractFileReferences` on one line: well-known filenames,
with trailing punctuation stripped from the capture. -/
def commonRefsOfLine (sourceFile : Str) (lineIndex : Nat) (line : Str)
    (fuel : Nat) : List FileReference :=
  (execLoop (findFromM (matchCommonAt line) line.length) fuel 0).map
    (fun m =>
      { path := stripTrailingPunct m.2.2, type := PathType.file
        mentioned_in := { file := sourceFile, line := lineIndex + 1
                          column := some m.1, context := trimStr line }
        exists_ := false })

/-- All four passes on one line, in source order. -/
def extractLineRefsF (sourceFile : Str) (fuel : Nat) (lineIndex : Nat)
    (line : Str) : List FileReference :=
  linkRefsOfLine sourceFile lineIndex line fuel ++
    codeRefsOfLine sourceFile lineIndex line fuel ++
    dirRefsOfLine sourceFile lineIndex line fuel ++
    commonRefsOfLine sourceFile lineIndex line fuel

/-- The `lines.forEach` of `extractFileReferences`, with a uniform fuel. -/
def extractLinesF (sourceFile : Str) (fuel : Nat) :
    Nat → List Str → List FileReference
  | _, [] => []
  | i, line :: rest =>
    extractLineRefsF sourceFile fuel i line ++
      extractLinesF sourceFile fuel (i + 1) rest

/-- The `lines.forEach` of `extractFileReferences` with the canonical
per-line fuel `line.length + 1`. -/
def extractLines (sourceFile : Str) : Nat → List Str → List FileReference
  | _, [] => []
  | i, line :: rest =>
    extractLineRefsF sourceFile (line.length + 1) i line ++
      extractLines sourceFile (i + 1) rest

/-- `deduplicateReferences` of fileSystemValidator: the JS key
`path + ":" + line` (with a decimal line number) collides exactly on equal
`(path, line)` pairs, modelled by the pair directly. -/
def dedupLoop (seen : List (Str × Nat)) : List FileReference → List FileReference
  | [] => []
  | r :: rest =>
    if (r.path, r.mentioned_in.line) ∈ seen then dedupLoop seen rest
    else r :: dedupLoop ((r.path, r.mentioned_in.line) :: seen) rest

/-- `deduplicateReferences(references)` of fileSystemValidator. -/
def deduplicateReferences (references : List FileReference) : List FileReference :=
  dedupLoop [] references

/-- `extractFileReferences(content, sourceFile)` of fileSystemValidator. -/
def extractFileReferences (content sourceFile : Str) : List FileReference :=
  deduplicateReferences (extractLines sourceFile 0 (splitLines content))

/-- `extractFileReferences` with an explicit uniform fuel bound on every
exec loop.  The C8 theorem shows any fuel of at least `content.length + 1`
yields the canonical result — the extraction loops terminate. -/
def extractFileReferencesF (fuel : Nat) (content sourceFile : Str) :
    List FileReference :=
  deduplicateReferences (extractLinesF sourceFile fuel 0 (splitLines content))

/-! ## Anchor normalization (`linkValidator.ts`) -/

/-- Replace every maximal run of characters satisfying `p` by the single
character `r` (JS `replace(/P+/g, "r")`); the Boolean records whether the
previous character was part of a run. -/
def collapseRunsAux (p : Char → Bool) (r : Char) : Bool → Str → Str
  | _, [] => []
  | inRun, c :: rest =>
    match p c, inRun with
    | true, true => collapseRunsAux p r true rest
    | true, false => r :: collapseRunsAux p r true rest
    | false, _ => c :: collapseRunsAux p r false rest

/-- JS `s.replace(/P+/g, "r")` for a character class `P`. -/
def collapseRuns (p : Char → Bool) (r : Char) (s : Str) : Str :=
  collapseRunsAux p r false s

/-- JS `s.replace(/^-|-$/g, '')`: one leading and one trailing hyphen
removed (the two non-overlapping matches the global regex can find). -/
def trimEdgeHyphens (s : Str) : Str :=
  let s1 := if hasStart s (str "-") then s.drop 1 else s
  if s1.getLast? = some '-' then s1.dropLast else s1

/-- `normalizeAnchor(anchor)` of linkValidator: lowercase, strip characters
outside `\w`, `\s` and `-`, turn whitespace runs into single hyphens,
collapse hyphen runs, trim edge hyphens. -/
def normalizeAnchor (anchor : Str) : Str :=
  let s1 := toLowerStr anchor
  let s2 := s1.filter (fun c => isWordChar c || isJsSpace c || c = '-')
  let s3 := collapseRuns (fun c => isJsSpace c) '-' s2
  let s4 := collapseRuns (fun c => c = '-') '-' s3
  trimEdgeHyphens s4

/-- No two adjacent characters of the string satisfy `p` (used to state that
a string has no two consecutive hyphens). -/
def noAdjRun (p : Char → Bool) : Str → Prop
  | [] => True
  | [_] => True
  | a :: b :: t => ¬ (p a = true ∧ p b = true) ∧ noAdjRun p (b :: t)

/-- A sample issue with the given severity and suggested fix, used to build
concrete analyses in the theorems below. -/
def mkIssue (sev : Severity) (ty : IssueType) (action : FixAction)
    (target : Option Str) : DocumentationIssue :=
  { type := ty, severity := sev, description := []
    suggestedFix := { action := action, target := target } }

/-! ## General lemmas -/

theorem sortInsert_perm {α : Type} (le : α → α → Bool) (x : α) :
    ∀ l, (sortInsert le x l).Perm (x :: l) := by
  intro l
  induction l with
  | nil => exact List.Perm.refl _
  | cons y l ih =>
    by_cases hxy : le x y = true
    · simp only [sortInsert, if_pos hxy]
      exact List.Perm.refl _
    · simp only [sortInsert, if_neg hxy]
      exact (ih.cons y).trans (List.Perm.swap x y l)

theorem stableSort_perm {α : Type} (le : α → α → Bool) :
    ∀ l, (stableSort le l).Perm l := by
  intro l
  induction l with
  | nil => exact List.Perm.refl _
  | cons x l ih =>
    exact (sortInsert_perm le x (stableSort le l)).trans (ih.cons x)

theorem stableSort_length {α : Type} (le : α → α → Bool) (l : List α) :
    (stableSort le l).length = l.length :=
  (stableSort_perm le l).length_eq

theorem pairwise_sortInsert {α : Type} (le : α → α → Bool)
    (htrans : ∀ a b c, le a b = true → le b c = true → le a c = true)
    (htot : ∀ a b, le a b = true ∨ le b a = true) (x : α) :
    ∀ l, List.Pairwise (fun a b => le a b = true) l →
      List.Pairwise (fun a b => le a b = true) (sortInsert le x l) := by
  intro l
  induction l with
  | nil => intro _; exact List.pairwise_singleton _ _
  | cons y l ih =>
    intro h
    by_cases hxy : le x y = true
    · simp only [sortInsert, if_pos hxy]
      refine List.Pairwise.cons ?_ h
      intro z hz
      rcases List.mem_cons.mp hz with rfl | hz'
      · exact hxy
      · exact htrans x y z hxy (List.rel_of_pairwise_cons h hz')
    · simp only [sortInsert, if_neg hxy]
      have hyx : le y x = true := (htot x y).resolve_left hxy
      refine List.Pairwise.cons ?_ (ih (List.Pairwise.of_cons h))
      intro z hz
      have hz2 : z ∈ x :: l := (sortInsert_perm le x l).subset hz
      rcases List.mem_cons.mp hz2 with rfl | hz'
      · exact hyx
      · exact List.rel_of_pairwise_cons h hz'

theorem pairwise_stableSort {α : Type} (le : α → α → Bool)
    (htrans : ∀ a b c, le a b = true → le b c = true → le a c = true)
    (htot : ∀ a b, le a b = true ∨ le b a = true) :
    ∀ l, List.Pairwise (fun a b => le a b = true) (stableSort le l) := by
  intro l
  induction l with
  | nil => exact List.Pairwise.nil
  | cons x l ih => exact pairwise_sortInsert le htrans htot x _ ih

theorem applyIssuseFix_options_irrel (issue : DocumentationIssue) (content : Str)
    (o1 o2 : FixOptions) : applyIssuseFix issue content o1 = applyIssuseFix issue content o2 :=
  rfl

theorem applyFixesLoop_options_irrel (o1 o2 : FixOptions)
    (l : List DocumentationIssue) : ∀ c, applyFixesLoop o1 l c = applyFixesLoop o2 l c := by
  induction l with
  | nil => intro c; rfl
  | cons issue rest ih =>
    intro c
    simp only [applyFixesLoop]
    rw [applyIssuseFix_options_irrel issue c o1 o2, ih]

theorem applyFixesLoop_length (o : FixOptions) (l : List DocumentationIssue) :
    ∀ c, (applyFixesLoop o l c).1.length = l.length := by
  induction l with
  | nil => intro c; rfl
  | cons issue rest ih => intro c; simp only [applyFixesLoop, List.length_cons, ih]

theorem applyFixesLoop_map_issue (o : FixOptions) (l : List DocumentationIssue) :
    ∀ c, (applyFixesLoop o l c).1.map (fun r => r.issue) = l := by
  induction l with
  | nil => intro c; rfl
  | cons issue rest ih =>
    intro c
    simp only [applyFixesLoop, List.map_cons, ih, applyIssuseFix]
    split <;> simp

theorem filter_applied_length (rs : List FixResult) :
    (rs.filter (fun r => r.applied)).length +
      (rs.filter (fun r => ¬ r.applied)).length = rs.length := by
  rw [← List.countP_eq_length_filter, ← List.countP_eq_length_filter]
  exact (List.length_eq_countP_add_countP (fun r => r.applied) rs).symm

/-! ## Claim C1 -/

/-- C1 (failing evaluation): for `oldText = "a"`, `newText = "b\na"` the
diff walker emits `[context "a", add "a"]` — the added line `"b"` never
appears — so replaying the diff against the old text yields `"a\na"`, not
`newText`.  This refutes the replay clause of the claim on a concrete
input. -/
theorem generateDiff_drops_interleaved_added_line :
    (generateDiff (str "a") (str "b\na") []).hasChanges = true ∧
    (generateDiff (str "a") (str "b\na") []).lines =
      [⟨.context, str "a", some 1⟩, ⟨.add, str "a", none⟩] ∧
    replayDiffLines (generateDiff (str "a") (str "b\na") []).lines =
      [str "a", str "a"] ∧
    ¬ joinLines (replayDiffLines (generateDiff (str "a") (str "b\na") []).lines) =
      str "b\na" := by
  decide

/-! ## Claim C3 -/

/-- C3: the analyzer's overall health is `poor` iff there is a high-severity
issue or more than 3 medium ones; otherwise `needs_attention` iff there is a
medium issue or more than 2 issues in total; otherwise `good`; with the
claim's four particular instances. -/
theorem overallHealth_classification (issues : List DocumentationIssue) :
    ((computeOverallHealth issues = .poor ↔
      (∃ i ∈ issues, i.severity = .high) ∨
        3 < issues.countP (fun i => i.severity = .medium)) ∧
    (computeOverallHealth issues = .needsAttention ↔
      ¬ ((∃ i ∈ issues, i.severity = .high) ∨
          3 < issues.countP (fun i => i.severity = .medium)) ∧
        ((∃ i ∈ issues, i.severity = .medium) ∨ 2 < issues.length)) ∧
    (computeOverallHealth issues = .good ↔
      ¬ ((∃ i ∈ issues, i.severity = .high) ∨
          3 < issues.countP (fun i => i.severity = .medium)) ∧
        ¬ ((∃ i ∈ issues, i.severity = .medium) ∨ 2 < issues.length))) ∧
    (computeOverallHealth [] = .good ∧
    computeOverallHealth [mkIssue .high .missingSections .addSection none] = .poor ∧
    computeOverallHealth
      (List.replicate 4 (mkIssue .medium .placeholderContent .removePlaceholder none)) = .poor ∧
    computeOverallHealth
      [mkIssue .medium .placeholderContent .removePlaceholder none] = .needsAttention) := by
  constructor
  · have hH : (issues.filter (fun i => i.severity = .high)).length =
        issues.countP (fun i => i.severity = .high) :=
      (List.countP_eq_length_filter _ _).symm
    have hM : (issues.filter (fun i => i.severity = .medium)).length =
        issues.countP (fun i => i.severity = .medium) :=
      (List.countP_eq_length_filter _ _).symm
    have hHpos : 0 < issues.countP (fun i => i.severity = .high) ↔
        ∃ i ∈ issues, i.severity = .high := by
      rw [List.countP_pos_iff]
      simp
    have hMpos : 0 < issues.countP (fun i => i.severity = .medium) ↔
        ∃ i ∈ issues, i.severity = .medium := by
      rw [List.countP_pos_iff]
      simp
    simp only [computeOverallHealth, hH, hM, ← hHpos, ← hMpos]
    split_ifs with h1 h2 <;>
      refine ⟨?_, ?_, ?_⟩ <;>
        first
          | exact iff_of_true rfl (by omega)
          | exact iff_of_false (by decide) (by omega)
  · refine ⟨by decide, by decide, by decide, by decide⟩

/-! ## Claim C9 -/

/-- C9: with `dryRun: true` no file write occurs, and the returned
`FixSummary` equals the one `dryRun: false` would return on the same
inputs. -/
theorem applyDocumentationFixes_dryRun (content filePath : Str)
    (issues : List DocumentationIssue) (th : Severity) (ap : Bool) :
    (applyDocumentationFixes content filePath issues
        { dryRun := true, severityThreshold := th, autoApprove := ap }).1 =
      (applyDocumentationFixes content filePath issues
        { dryRun := false, severityThreshold := th, autoApprove := ap }).1 ∧
    (applyDocumentationFixes content filePath issues
        { dryRun := true, severityThreshold := th, autoApprove := ap }).2 = none := by
  constructor
  · simp only [applyDocumentationFixes]
    rw [applyFixesLoop_options_irrel
      { dryRun := true, severityThreshold := th, autoApprove := ap }
      { dryRun := false, severityThreshold := th, autoApprove := ap }]
  · simp [applyDocumentationFixes]

/-! ## Claim C10 -/

/-- C10: the summary's `results` list has exactly one entry per issue meeting
the severity threshold, `fixesApplied + fixesSkipped` equals its length, and
`totalIssues` is the full analysis issue count regardless of the
threshold. -/
theorem fixSummary_counts (content filePath : Str)
    (issues : List DocumentationIssue) (options : FixOptions) :
    (applyDocumentationFixes content filePath issues options).1.results.length =
      (issues.filter (fun issue =>
        severityLevels options.severityThreshold ≤ severityLevels issue.severity)).length ∧
    (applyDocumentationFixes content filePath issues options).1.fixesApplied +
        (applyDocumentationFixes content filePath issues options).1.fixesSkipped =
      (applyDocumentationFixes content filePath issues options).1.results.length ∧
    (applyDocumentationFixes content filePath issues options).1.totalIssues =
      issues.length := by
  refine ⟨?_, ?_, rfl⟩
  · simp only [applyDocumentationFixes]
    rw [applyFixesLoop_length, stableSort_length]
  · simp only [applyDocumentationFixes]
    exact filter_applied_length _

/-! ## Claim C7 -/

theorem char_le_iff_toNat (a b : Char) : a ≤ b ↔ a.toNat ≤ b.toNat := by
  rw [Char.le_def, UInt32.le_def, BitVec.le_def]
  exact Iff.rfl

theorem char_toNat_ofNat_valid (n : Nat) (h : n.isValidChar) :
    (Char.ofNat n).toNat = n := by
  simp only [Char.ofNat, h, dif_pos, Char.ofNatAux, Char.toNat]
  rfl

theorem toLowerChar_not_upper (c : Char) :
    ¬ ('A' ≤ toLowerChar c ∧ toLowerChar c ≤ 'Z') := by
  unfold toLowerChar
  split
  · rename_i h
    have h1 : (65 : Nat) ≤ c.toNat := by
      have := (char_le_iff_toNat 'A' c).mp h.1
      rwa [show ('A' : Char).toNat = 65 from rfl] at this
    have h2 : c.toNat ≤ 90 := by
      have := (char_le_iff_toNat c 'Z').mp h.2
      rwa [show ('Z' : Char).toNat = 90 from rfl] at this
    have hv : (c.toNat + 32).isValidChar := Or.inl (by omega)
    have ht : (Char.ofNat (c.toNat + 32)).toNat = c.toNat + 32 :=
      char_toNat_ofNat_valid _ hv
    intro hcon
    have ha := (char_le_iff_toNat 'A' _).mp hcon.1
    have hb := (char_le_iff_toNat _ 'Z').mp hcon.2
    rw [ht, show ('A' : Char).toNat = 65 from rfl] at ha
    rw [ht, show ('Z' : Char).toNat = 90 from rfl] at hb
    omega
  · rename_i h
    exact h

theorem toLowerChar_fix (c : Char) (h : ¬ ('A' ≤ c ∧ c ≤ 'Z')) :
    toLowerChar c = c := by
  unfold toLowerChar
  exact if_neg h

theorem toLowerChar_idem (c : Char) :
    toLowerChar (toLowerChar c) = toLowerChar c :=
  toLowerChar_fix _ (toLowerChar_not_upper c)

theorem mem_collapseRunsAux (p : Char → Bool) (r : Char) :
    ∀ (s : Str) (b : Bool) (c : Char), c ∈ collapseRunsAux p r b s →
      c = r ∨ (c ∈ s ∧ p c = false) := by
  intro s
  induction s with
  | nil => intro b c hc; cases hc
  | cons a rest ih =>
    intro b c hc
    cases hpa : p a with
    | true =>
      cases b with
      | true =>
        simp only [collapseRunsAux, hpa] at hc
        rcases ih true c hc with h | h
        · exact Or.inl h
        · exact Or.inr ⟨List.mem_cons_of_mem _ h.1, h.2⟩
      | false =>
        simp only [collapseRunsAux, hpa] at hc
        rw [List.mem_cons] at hc
        rcases hc with hc | hc
        · exact Or.inl hc
        · rcases ih true c hc with h | h
          · exact Or.inl h
          · exact Or.inr ⟨List.mem_cons_of_mem _ h.1, h.2⟩
    | false =>
      simp only [collapseRunsAux, hpa] at hc
      rw [List.mem_cons] at hc
      rcases hc with hc | hc
      · subst hc
        exact Or.inr ⟨List.mem_cons_self _ _, hpa⟩
      · rcases ih false c hc with h | h
        · exact Or.inl h
        · exact Or.inr ⟨List.mem_cons_of_mem _ h.1, h.2⟩

theorem collapseRunsAux_id_of_none (p : Char → Bool) (r : Char) :
    ∀ (s : Str) (b : Bool), (∀ c ∈ s, p c = false) →
      collapseRunsAux p r b s = s := by
  intro s
  induction s with
  | nil => intro b _; rfl
  | cons a rest ih =>
    intro b h
    have hpa : p a = false := h a (List.mem_cons_self _ _)
    simp only [collapseRunsAux, hpa]
    rw [ih false (fun c hc => h c (List.mem_cons_of_mem _ hc))]

theorem head_collapseRunsAux_true (p : Char → Bool) (r : Char) :
    ∀ (s : Str) (c : Char), (collapseRunsAux p r true s).head? = some c →
      p c = false := by
  intro s
  induction s with
  | nil => intro c hc; cases hc
  | cons a rest ih =>
    intro c hc
    cases hpa : p a with
    | true =>
      simp only [collapseRunsAux, hpa] at hc
      exact ih c hc
    | false =>
      simp only [collapseRunsAux, hpa, List.head?_cons, Option.some.injEq] at hc
      rw [← hc]
      exact hpa

theorem noAdjRun_cons (p : Char → Bool) (y : Char) (X : Str)
    (hX : noAdjRun p X)
    (hh : ∀ c, X.head? = some c → ¬ (p y = true ∧ p c = true)) :
    noAdjRun p (y :: X) := by
  cases X with
  | nil => trivial
  | cons b t => exact ⟨hh b rfl, hX⟩

theorem noAdjRun_tail (p : Char → Bool) (a : Char) (rest : Str)
    (h : noAdjRun p (a :: rest)) : noAdjRun p rest := by
  cases rest with
  | nil => trivial
  | cons b t => exact h.2

theorem noAdjRun_head_next (p : Char → Bool) (a : Char) (rest : Str)
    (h : noAdjRun p (a :: rest)) (hpa : p a = true) :
    ∀ c, rest.head? = some c → p c = false := by
  intro c hc
  cases rest with
  | nil => cases hc
  | cons b t =>
    rw [List.head?_cons, Option.some.injEq] at hc
    subst hc
    cases hpb : p b with
    | false => rfl
    | true => exact absurd ⟨hpa, hpb⟩ h.1

theorem noAdjRun_collapseRunsAux (p : Char → Bool) (r : Char) :
    ∀ (s : Str) (b : Bool), noAdjRun p (collapseRunsAux p r b s) := by
  intro s
  induction s with
  | nil => intro b; trivial
  | cons a rest ih =>
    intro b
    cases hpa : p a with
    | false =>
      simp only [collapseRunsAux, hpa]
      refine noAdjRun_cons p a _ (ih false) ?_
      intro c _ hand
      rw [hand.1] at hpa
      cases hpa
    | true =>
      cases b with
      | true =>
        simpa only [collapseRunsAux, hpa] using ih true
      | false =>
        simp only [collapseRunsAux, hpa]
        refine noAdjRun_cons p r _ (ih true) ?_
        intro c hc hand
        rw [head_collapseRunsAux_true p r rest c hc] at hand
        cases hand.2

theorem collapseRunsAux_id_noAdj (p : Char → Bool) (r : Char)
    (hval : ∀ c, p c = true → c = r) :
    ∀ (s : Str) (b : Bool), noAdjRun p s →
      (b = true → ∀ c, s.head? = some c → p c = false) →
      collapseRunsAux p r b s = s := by
  intro s
  induction s with
  | nil => intro b _ _; rfl
  | cons a rest ih =>
    intro b hadj hhead
    cases hpa : p a with
    | true =>
      cases b with
      | true =>
        have := hhead rfl a rfl
        rw [hpa] at this
        cases this
      | false =>
        simp only [collapseRunsAux, hpa]
        rw [ih true (noAdjRun_tail p a rest hadj)
          (fun _ => noAdjRun_head_next p a rest hadj hpa)]
        rw [hval a hpa]
    | false =>
      simp only [collapseRunsAux, hpa]
      rw [ih false (noAdjRun_tail p a rest hadj) (by intro h; cases h)]

theorem noAdjRun_dropLast (p : Char → Bool) :
    ∀ s : Str, noAdjRun p s → noAdjRun p s.dropLast := by
  intro s
  induction s with
  | nil => intro _; trivial
  | cons a rest ih =>
    intro h
    cases rest with
    | nil => trivial
    | cons b t =>
      rw [List.dropLast_cons₂]
      refine noAdjRun_cons p a _ (ih h.2) ?_
      intro c hc hand
      rw [List.head?_dropLast] at hc
      split at hc
      · rw [List.head?_cons, Option.some.injEq] at hc
        subst hc
        exact h.1 hand
      · cases hc

theorem getLast?_dropLast_noAdj (p : Char → Bool) :
    ∀ s : Str, noAdjRun p s → (∀ x, s.getLast? = some x → p x = true) →
      ∀ y, s.dropLast.getLast? = some y → p y = false := by
  intro s
  induction s with
  | nil => intro _ _ y hy; cases hy
  | cons a rest ih =>
    intro hadj hlast y hy
    cases rest with
    | nil => cases hy
    | cons b t =>
      cases t with
      | nil =>
        rw [show (a :: [b]).dropLast = [a] from rfl] at hy
        rw [show ([a] : Str).getLast? = some a from rfl, Option.some.injEq] at hy
        subst hy
        have hb : p b = true := hlast b rfl
        cases hpa2 : p a with
        | false => rfl
        | true => exact absurd ⟨hpa2, hb⟩ hadj.1
      | cons c' t' =>
        rw [List.dropLast_cons₂, List.dropLast_cons₂, List.getLast?_cons_cons,
          ← List.dropLast_cons₂] at hy
        exact ih hadj.2
          (fun x hx => hlast x (by rwa [List.getLast?_cons_cons])) y hy

theorem hasStart_hyphen_iff (s : Str) :
    hasStart s (str "-") = true ↔ s.head? = some '-' := by
  cases s with
  | nil =>
    show hasStart [] ['-'] = true ↔ (none : Option Char) = some '-'
    simp [hasStart]
  | cons a t =>
    show (a == '-' && hasStart t []) = true ↔ some a = some '-'
    rw [show hasStart t [] = true from by cases t <;> rfl]
    simp

theorem trimEdgeHyphens_eq_self (s : Str)
    (h1 : ¬ hasStart s (str "-") = true) (h2 : ¬ s.getLast? = some '-') :
    trimEdgeHyphens s = s := by
  simp only [trimEdgeHyphens, if_neg h1, if_neg h2]

theorem mem_trimEdgeHyphens (s : Str) (c : Char)
    (h : c ∈ trimEdgeHyphens s) : c ∈ s := by
  simp only [trimEdgeHyphens] at h
  split_ifs at h
  · exact (List.drop_sublist 1 s).subset ((List.dropLast_sublist _).subset h)
  · exact (List.drop_sublist 1 s).subset h
  · exact (List.dropLast_sublist _).subset h
  · exact h

theorem dropTrailingHyphen_props (t : Str)
    (hadj : noAdjRun (fun c => c = '-') t)
    (hhead : ∀ c, t.head? = some c → ¬ c = '-') :
    noAdjRun (fun c => c = '-') (if t.getLast? = some '-' then t.dropLast else t) ∧
    ¬ hasStart (if t.getLast? = some '-' then t.dropLast else t) (str "-") = true ∧
    ¬ (if t.getLast? = some '-' then t.dropLast else t).getLast? = some '-' := by
  split_ifs with hlast
  · refine ⟨noAdjRun_dropLast _ _ hadj, ?_, ?_⟩
    · intro hcon
      have hc := (hasStart_hyphen_iff _).mp hcon
      rw [List.head?_dropLast] at hc
      split at hc
      · exact hhead '-' hc rfl
      · cases hc
    · intro hcon
      have := getLast?_dropLast_noAdj (fun c => c = '-') t hadj
        (fun x hx => by
          rw [hlast, Option.some.injEq] at hx
          subst hx
          simp) '-' hcon
      simp at this
  · refine ⟨hadj, ?_, hlast⟩
    intro hcon
    exact hhead '-' ((hasStart_hyphen_iff _).mp hcon) rfl

theorem trimEdgeHyphens_props (s : Str)
    (hadj : noAdjRun (fun c => c = '-') s) :
    noAdjRun (fun c => c = '-') (trimEdgeHyphens s) ∧
    ¬ hasStart (trimEdgeHyphens s) (str "-") = true ∧
    ¬ (trimEdgeHyphens s).getLast? = some '-' := by
  by_cases hst : hasStart s (str "-") = true
  · have h1 : trimEdgeHyphens s =
        (if (s.drop 1).getLast? = some '-' then (s.drop 1).dropLast else s.drop 1) := by
      simp only [trimEdgeHyphens, if_pos hst]
    rw [h1]
    apply dropTrailingHyphen_props
    · cases s with
      | nil => trivial
      | cons a t => exact noAdjRun_tail _ a t hadj
    · intro c hc hceq
      cases s with
      | nil => cases hc
      | cons a t =>
        have ha : a = '-' := by
          have := (hasStart_hyphen_iff (a :: t)).mp hst
          rw [List.head?_cons, Option.some.injEq] at this
          exact this
        subst ha
        subst hceq
        have := noAdjRun_head_next (fun c => c = '-') '-' t hadj (by simp) '-'
          (by simpa using hc)
        simp at this
  · have h1 : trimEdgeHyphens s = (if s.getLast? = some '-' then s.dropLast else s) := by
      simp only [trimEdgeHyphens, if_neg hst]
    rw [h1]
    apply dropTrailingHyphen_props _ hadj
    intro c hc hceq
    subst hceq
    exact hst ((hasStart_hyphen_iff s).mpr hc)

theorem normalizeAnchor_fixes (s : Str)
    (hchar : ∀ c ∈ s, toLowerChar c = c ∧
      (isWordChar c || isJsSpace c || c = '-') = true ∧ isJsSpace c = false)
    (hadj : noAdjRun (fun c => c = '-') s)
    (hstart : ¬ hasStart s (str "-") = true)
    (hlast : ¬ s.getLast? = some '-') :
    normalizeAnchor s = s := by
  have e1 : toLowerStr s = s := by
    unfold toLowerStr
    have : s.map toLowerChar = s.map id :=
      List.map_congr_left (fun c hc => (hchar c hc).1)
    rw [this, List.map_id]
  have e2 : s.filter (fun c => isWordChar c || isJsSpace c || c = '-') = s :=
    List.filter_eq_self.mpr (fun c hc => (hchar c hc).2.1)
  have e3 : collapseRuns (fun c => isJsSpace c) '-' s = s := by
    unfold collapseRuns
    exact collapseRunsAux_id_of_none _ _ s false (fun c hc => (hchar c hc).2.2)
  have e4 : collapseRuns (fun c => c = '-') '-' s = s := by
    unfold collapseRuns
    exact collapseRunsAux_id_noAdj _ _ (fun c hc => by simpa using hc) s false
      hadj (by intro h; cases h)
  simp only [normalizeAnchor]
  rw [e1, e2, e3, e4]
  exact trimEdgeHyphens_eq_self s hstart hlast

theorem normalizeAnchor_props (x : Str) :
    (∀ c ∈ normalizeAnchor x, toLowerChar c = c ∧
      (isWordChar c || isJsSpace c || c = '-') = true ∧ isJsSpace c = false) ∧
    noAdjRun (fun c => c = '-') (normalizeAnchor x) ∧
    ¬ hasStart (normalizeAnchor x) (str "-") = true ∧
    ¬ (normalizeAnchor x).getLast? = some '-' := by
  have hs4adj : noAdjRun (fun c => c = '-')
      (collapseRuns (fun c => c = '-') '-'
        (collapseRuns (fun c => isJsSpace c) '-'
          ((toLowerStr x).filter (fun c => isWordChar c || isJsSpace c || c = '-')))) :=
    noAdjRun_collapseRunsAux _ _ _ false
  have htrim := trimEdgeHyphens_props _ hs4adj
  refine ⟨?_, ?_, ?_, ?_⟩
  · intro c hc
    have hc4 : c ∈ collapseRuns (fun c => c = '-') '-'
        (collapseRuns (fun c => isJsSpace c) '-'
          ((toLowerStr x).filter (fun c => isWordChar c || isJsSpace c || c = '-'))) :=
      mem_trimEdgeHyphens _ c (by simpa only [normalizeAnchor] using hc)
    have hyphen_props : toLowerChar '-' = '-' ∧
        (isWordChar '-' || isJsSpace '-' || '-' = '-') = true ∧
        isJsSpace '-' = false := by
      refine ⟨?_, by decide, by decide⟩
      unfold toLowerChar
      rw [if_neg]
      decide
    rcases mem_collapseRunsAux _ _ _ false c hc4 with rfl | ⟨hc3, _⟩
    · exact hyphen_props
    · rcases mem_collapseRunsAux _ _ _ false c hc3 with rfl | ⟨hc2, hsp⟩
      · exact hyphen_props
      · rw [List.mem_filter] at hc2
        obtain ⟨hc1, hkept⟩ := hc2
        rw [toLowerStr, List.mem_map] at hc1
        obtain ⟨d, _, hd⟩ := hc1
        refine ⟨?_, hkept, hsp⟩
        rw [← hd]
        exact toLowerChar_idem d
  · exact by simpa only [normalizeAnchor] using htrim.1
  · exact by simpa only [normalizeAnchor] using htrim.2.1
  · exact by simpa only [normalizeAnchor] using htrim.2.2

/-! ## Substring lemmas -/

theorem hasStart_self (s : Str) : hasStart s s = true := by
  induction s with
  | nil => rfl
  | cons c rest ih => simp [hasStart, ih]

theorem hasStart_extend (t : Str) :
    ∀ (s z : Str), hasStart s t = true → hasStart (s ++ z) t = true := by
  induction t with
  | nil =>
    intro s z _
    cases s with
    | nil => cases z <;> rfl
    | cons c s' => rfl
  | cons d t' ih =>
    intro s z h
    cases s with
    | nil => cases h
    | cons c s' =>
      simp only [hasStart, Bool.and_eq_true] at h
      simp only [List.cons_append, hasStart, Bool.and_eq_true]
      exact ⟨h.1, ih s' z h.2⟩

theorem hasStart_append_self (t x : Str) : hasStart (t ++ x) t = true :=
  hasStart_extend t t x (hasStart_self t)

theorem containsStr_nil_right (s : Str) : containsStr s [] = true := by
  cases s with
  | nil => rfl
  | cons c rest => simp [containsStr, hasStart]

theorem containsStr_left (t : Str) :
    ∀ (s z : Str), containsStr s t = true → containsStr (s ++ z) t = true := by
  intro s
  induction s with
  | nil =>
    intro z h
    cases t with
    | nil => exact containsStr_nil_right z
    | cons d t' => cases h
  | cons c s' ih =>
    intro z h
    simp only [containsStr, Bool.or_eq_true] at h
    simp only [List.cons_append, containsStr, Bool.or_eq_true]
    rcases h with h | h
    · exact Or.inl (hasStart_extend t (c :: s') z h)
    · exact Or.inr (ih z h)

theorem containsStr_right (t : Str) :
    ∀ (x s : Str), containsStr s t = true → containsStr (x ++ s) t = true := by
  intro x
  induction x with
  | nil => intro s h; exact h
  | cons c x' ih =>
    intro s h
    simp only [List.cons_append, containsStr, Bool.or_eq_true]
    exact Or.inr (ih s h)

theorem containsStr_self (s : Str) : containsStr s s = true := by
  cases s with
  | nil => rfl
  | cons c rest =>
    simp only [containsStr, Bool.or_eq_true]
    exact Or.inl (hasStart_self _)

theorem containsStr_joinWith (sep : Str) :
    ∀ (L : List Str) (f : Str), f ∈ L → containsStr (joinWith sep L) f = true := by
  intro L
  induction L with
  | nil => intro f h; cases h
  | cons x rest ih =>
    intro f h
    cases rest with
    | nil =>
      rw [List.mem_singleton] at h
      subst h
      exact containsStr_self f
    | cons y rest' =>
      rcases List.mem_cons.mp h with rfl | h'
      · show containsStr (f ++ sep ++ joinWith sep (y :: rest')) f = true
        rw [List.append_assoc]
        exact containsStr_left f f (sep ++ joinWith sep (y :: rest'))
          (containsStr_self f)
      · show containsStr (x ++ sep ++ joinWith sep (y :: rest')) f = true
        rw [List.append_assoc]
        exact containsStr_right f x (sep ++ joinWith sep (y :: rest'))
          (containsStr_right f sep _ (ih f h'))

/-- Correctness of `replaceFirst`: replacing at the first occurrence.  If
`target` occurs at position `a.length` of `a ++ target ++ b` and at no
earlier position, the result is `a ++ r ++ b`. -/
theorem replaceFirst_spec (target r : Str) :
    ∀ (a b : Str),
      (∀ j < a.length, ¬ hasStart ((a ++ target ++ b).drop j) target = true) →
      replaceFirst (a ++ target ++ b) target r = a ++ r ++ b := by
  intro a
  induction a with
  | nil =>
    intro b _
    simp only [List.nil_append]
    cases htb : target ++ b with
    | nil =>
      rcases List.append_eq_nil.mp htb with ⟨ht, hb⟩
      subst ht
      subst hb
      simp [replaceFirst, hasStart]
    | cons c rest =>
      rw [← htb]
      have hst : hasStart (target ++ b) target = true := hasStart_append_self target b
      rw [htb] at hst ⊢
      simp only [replaceFirst, hst, if_pos]
      rw [← htb, List.drop_left]
  | cons c a' ih =>
    intro b hno
    have h0 := hno 0 (by simp)
    simp only [List.drop_zero] at h0
    simp only [List.cons_append]
    rw [show ((c :: (a' ++ target ++ b)) : Str) = c :: (a' ++ target ++ b) from rfl]
    simp only [replaceFirst]
    rw [if_neg (by simpa using h0)]
    rw [ih b (fun j hj => by
      have := hno (j + 1) (by simpa using Nat.succ_lt_succ hj)
      simpa using this)]

/-! ## Claim C2 -/

theorem parseSectionsLoop_some_head (lines : List Str) :
    ∀ (rem : List Str) (i : Nat) (h : Str) (s lvl : Nat),
      ∃ sec rest', parseSectionsLoop lines i rem (some (h, s, lvl)) = sec :: rest' ∧
        sec.startLine = s := by
  intro rem
  induction rem with
  | nil =>
    intro i h s lvl
    exact ⟨_, _, rfl, rfl⟩
  | cons line rest ih =>
    intro i h s lvl
    cases hm : headingMatch line with
    | none =>
      simp only [parseSectionsLoop, hm]
      exact ih (i + 1) h s lvl
    | some v =>
      obtain ⟨lvl', htext⟩ := v
      simp only [parseSectionsLoop, hm]
      exact ⟨_, _, rfl, rfl⟩

theorem parseSectionsLoop_length (lines : List Str) :
    ∀ (rem : List Str) (i : Nat) (cur : Option (Str × Nat × Nat)),
      (parseSectionsLoop lines i rem cur).length =
        rem.countP (fun l => isHeadingLine l) +
          (match cur with | none => 0 | some _ => 1) := by
  intro rem
  induction rem with
  | nil =>
    intro i cur
    cases cur with
    | none => rfl
    | some v => obtain ⟨h, s, lvl⟩ := v; rfl
  | cons line rest ih =>
    intro i cur
    cases hm : headingMatch line with
    | none =>
      simp only [parseSectionsLoop, hm, List.countP_cons]
      rw [ih]
      simp [isHeadingLine, hm]
    | some v =>
      obtain ⟨lvl, htext⟩ := v
      cases cur with
      | none =>
        simp only [parseSectionsLoop, hm, List.countP_cons]
        rw [ih]
        simp [isHeadingLine, hm]
      | some w =>
        obtain ⟨h, s, plvl⟩ := w
        simp only [parseSectionsLoop, hm, List.countP_cons, List.length_cons]
        rw [ih]
        simp [isHeadingLine, hm]

theorem parseSectionsLoop_start_le_end (lines : List Str) :
    ∀ (rem : List Str) (i : Nat) (cur : Option (Str × Nat × Nat)),
      i + rem.length = lines.length →
      (∀ h s lvl, cur = some (h, s, lvl) → s < i) →
      ∀ sec ∈ parseSectionsLoop lines i rem cur, sec.startLine ≤ sec.endLine := by
  intro rem
  induction rem with
  | nil =>
    intro i cur hlen hcur sec hsec
    cases cur with
    | none => cases hsec
    | some v =>
      obtain ⟨h, s, lvl⟩ := v
      rw [show parseSectionsLoop lines i [] (some (h, s, lvl)) =
        [⟨h, joinLines (lines.drop s), s, lines.length - 1, lvl⟩] from rfl] at hsec
      rw [List.mem_singleton] at hsec
      subst hsec
      have hs := hcur h s lvl rfl
      simp only [List.length_nil, Nat.add_zero] at hlen
      simp only []
      omega
  | cons line rest ih =>
    intro i cur hlen hcur sec hsec
    have hlen' : (i + 1) + rest.length = lines.length := by
      simp only [List.length_cons] at hlen
      omega
    cases hm : headingMatch line with
    | none =>
      simp only [parseSectionsLoop, hm] at hsec
      exact ih (i + 1) cur hlen'
        (fun h s lvl hc => Nat.lt_succ_of_lt (hcur h s lvl hc)) sec hsec
    | some v =>
      obtain ⟨lvl, htext⟩ := v
      cases cur with
      | none =>
        simp only [parseSectionsLoop, hm] at hsec
        exact ih (i + 1) _ hlen'
          (fun h s l hc => by
            simp only [Option.some.injEq, Prod.mk.injEq] at hc
            omega) sec hsec
      | some w =>
        obtain ⟨h, s, plvl⟩ := w
        simp only [parseSectionsLoop, hm] at hsec
        rcases List.mem_cons.mp hsec with hfirst | hsec'
        · subst hfirst
          have hs := hcur h s plvl rfl
          simp only []
          omega
        · exact ih (i + 1) _ hlen'
            (fun h' s' l' hc => by
              simp only [Option.some.injEq, Prod.mk.injEq] at hc
              omega) sec hsec'

theorem parseSectionsLoop_chain (lines : List Str) :
    ∀ (rem : List Str) (i : Nat) (cur : Option (Str × Nat × Nat)),
      (∀ h s lvl, cur = some (h, s, lvl) → s < i) →
      List.Chain' (fun a b => b.startLine = a.endLine + 1)
        (parseSectionsLoop lines i rem cur) := by
  intro rem
  induction rem with
  | nil =>
    intro i cur hcur
    cases cur with
    | none => exact List.chain'_nil
    | some v => obtain ⟨h, s, lvl⟩ := v; exact List.chain'_singleton _
  | cons line rest ih =>
    intro i cur hcur
    cases hm : headingMatch line with
    | none =>
      simp only [parseSectionsLoop, hm]
      exact ih (i + 1) cur (fun h s lvl hc => Nat.lt_succ_of_lt (hcur h s lvl hc))
    | some v =>
      obtain ⟨lvl, htext⟩ := v
      have hnext : ∀ h' s' l', some (htext, i, lvl) = some (h', s', l') → s' < i + 1 := by
        intro h' s' l' hc
        simp only [Option.some.injEq, Prod.mk.injEq] at hc
        omega
      cases cur with
      | none =>
        simp only [parseSectionsLoop, hm]
        exact ih (i + 1) _ hnext
      | some w =>
        obtain ⟨h, s, plvl⟩ := w
        simp only [parseSectionsLoop, hm]
        obtain ⟨sec1, rest1, heq, hstart⟩ :=
          parseSectionsLoop_some_head lines rest (i + 1) htext i lvl
        rw [heq, List.chain'_cons]
        constructor
        · have hs := hcur h s plvl rfl
          rw [hstart]
          simp only []
          omega
        · rw [← heq]
          exact ih (i + 1) _ hnext

theorem parseSectionsLoop_none_head (lines : List Str) :
    ∀ (rem : List Str) (i : Nat) (sec : ContentSection) (rest' : List ContentSection),
      parseSectionsLoop lines i rem none = sec :: rest' →
      sec.startLine = i + rem.findIdx (fun l => isHeadingLine l) := by
  intro rem
  induction rem with
  | nil => intro i sec rest' h; cases h
  | cons line rest ih =>
    intro i sec rest' h
    cases hm : headingMatch line with
    | none =>
      simp only [parseSectionsLoop, hm] at h
      have hihl : isHeadingLine line = false := by simp [isHeadingLine, hm]
      rw [List.findIdx_cons, hihl]
      have := ih (i + 1) sec rest' h
      simp only [cond_false]
      omega
    | some v =>
      obtain ⟨lvl, htext⟩ := v
      simp only [parseSectionsLoop, hm] at h
      obtain ⟨sec1, rest1, heq, hstart⟩ :=
        parseSectionsLoop_some_head lines rest (i + 1) htext i lvl
      rw [heq] at h
      injection h with h1 h2
      subst h1
      have hihl : isHeadingLine line = true := by simp [isHeadingLine, hm]
      rw [List.findIdx_cons, hihl]
      simp only [cond_true, Nat.add_zero]
      exact hstart

theorem parseSectionsLoop_last_end (lines : List Str) :
    ∀ (rem : List Str) (i : Nat) (cur : Option (Str × Nat × Nat)) (sec : ContentSection),
      (parseSectionsLoop lines i rem cur).getLast? = some sec →
      sec.endLine = lines.length - 1 := by
  intro rem
  induction rem with
  | nil =>
    intro i cur sec h
    cases cur with
    | none => cases h
    | some v =>
      obtain ⟨hh, s, lvl⟩ := v
      rw [show parseSectionsLoop lines i [] (some (hh, s, lvl)) =
        [⟨hh, joinLines (lines.drop s), s, lines.length - 1, lvl⟩] from rfl] at h
      rw [show ([(⟨hh, joinLines (lines.drop s), s, lines.length - 1, lvl⟩ :
        ContentSection)]).getLast? =
        some ⟨hh, joinLines (lines.drop s), s, lines.length - 1, lvl⟩ from rfl,
        Option.some.injEq] at h
      rw [← h]
  | cons line rest ih =>
    intro i cur sec h
    cases hm : headingMatch line with
    | none =>
      simp only [parseSectionsLoop, hm] at h
      exact ih (i + 1) cur sec h
    | some v =>
      obtain ⟨lvl, htext⟩ := v
      cases cur with
      | none =>
        simp only [parseSectionsLoop, hm] at h
        exact ih (i + 1) _ sec h
      | some w =>
        obtain ⟨hh, s, plvl⟩ := w
        simp only [parseSectionsLoop, hm] at h
        obtain ⟨sec1, rest1, heq, _⟩ :=
          parseSectionsLoop_some_head lines rest (i + 1) htext i lvl
        rw [heq, List.getLast?_cons_cons, ← heq] at h
        exact ih (i + 1) _ sec h

/-- C2 (amended): `parseMarkdownSections` returns exactly one section per
ATX heading line, each with `startLine ≤ endLine`; consecutive sections tile
the line range contiguously (`next.startLine = previous.endLine + 1`), the
first section starts at the first heading line and the last section ends at
the last line of the document.  Lines before the first heading belong to no
section. -/
theorem parseMarkdownSections_partition (content : Str) :
    (parseMarkdownSections content).length =
      (splitLines content).countP (fun l => isHeadingLine l) ∧
    (∀ sec ∈ parseMarkdownSections content, sec.startLine ≤ sec.endLine) ∧
    List.Chain' (fun a b => b.startLine = a.endLine + 1)
      (parseMarkdownSections content) ∧
    (∀ sec rest', parseMarkdownSections content = sec :: rest' →
      sec.startLine = (splitLines content).findIdx (fun l => isHeadingLine l)) ∧
    (∀ sec, (parseMarkdownSections content).getLast? = some sec →
      sec.endLine = (splitLines content).length - 1) := by
  simp only [parseMarkdownSections]
  refine ⟨?_, ?_, ?_, ?_, ?_⟩
  · rw [parseSectionsLoop_length]
    rfl
  · exact parseSectionsLoop_start_le_end (splitLines content) (splitLines content) 0
      none (by omega) (fun h s lvl hc => by cases hc)
  · exact parseSectionsLoop_chain (splitLines content) (splitLines content) 0 none
      (fun h s lvl hc => by cases hc)
  · intro sec rest' h
    have := parseSectionsLoop_none_head (splitLines content) (splitLines content) 0
      sec rest' h
    omega
  · intro sec h
    exact parseSectionsLoop_last_end (splitLines content) (splitLines content) 0
      none sec h

/-- C2 (counterexample): for the two-line document `"intro\n# A"` the single
parsed section starts at line 1, so line 0 of the document is covered by no
section — the sections do not cover the document's lines. -/
theorem parseMarkdownSections_preamble_uncovered :
    (splitLines (str "intro\n# A")).length = 2 ∧
    (parseMarkdownSections (str "intro\n# A")).length = 1 ∧
    ((parseMarkdownSections (str "intro\n# A")).all
      (fun sec => !(decide (sec.startLine ≤ 0 ∧ 0 ≤ sec.endLine)))) = true := by
  decide

/-! ## Claim C4 -/

/-- C4 (counterexample): an analysis with one high and two medium issues run
at threshold `high` attempts exactly one fix, but when that fix is a no-op on
the document (here: a `remove_placeholder` whose target occurs nowhere),
`fixesApplied` is 0, not 1. -/
theorem fixes_high_threshold_not_applied :
    ([mkIssue .high .missingFiles .removePlaceholder (some (str "zzz")),
      mkIssue .medium .placeholderContent .removePlaceholder (some (str "yyy")),
      mkIssue .medium .placeholderContent .removePlaceholder (some (str "www"))].countP
        (fun i => i.severity = .high) = 1 ∧
     [mkIssue .high .missingFiles .removePlaceholder (some (str "zzz")),
      mkIssue .medium .placeholderContent .removePlaceholder (some (str "yyy")),
      mkIssue .medium .placeholderContent .removePlaceholder (some (str "www"))].countP
        (fun i => i.severity = .medium) = 2) ∧
    (applyDocumentationFixes (str "hello") (str "doc.md")
      [mkIssue .high .missingFiles .removePlaceholder (some (str "zzz")),
       mkIssue .medium .placeholderContent .removePlaceholder (some (str "yyy")),
       mkIssue .medium .placeholderContent .removePlaceholder (some (str "www"))]
      { dryRun := false, severityThreshold := .high, autoApprove := true
        }).1.results.length = 1 ∧
    ¬ (applyDocumentationFixes (str "hello") (str "doc.md")
      [mkIssue .high .missingFiles .removePlaceholder (some (str "zzz")),
       mkIssue .medium .placeholderContent .removePlaceholder (some (str "yyy")),
       mkIssue .medium .placeholderContent .removePlaceholder (some (str "www"))]
      { dryRun := false, severityThreshold := .high, autoApprove := true
        }).1.fixesApplied = 1 := by
  decide

/-- C4 (amended): every attempted fix meets the severity threshold, the
attempted issues are exactly the filtered ones (as a permutation), they are
processed in non-increasing severity order (all high before medium before
low), and in the claim's scenario (one high, two medium, threshold high)
exactly one fix is attempted and at most one is applied. -/
theorem applyDocumentationFixes_threshold_order (content filePath : Str)
    (issues : List DocumentationIssue) (options : FixOptions) :
    (∀ r ∈ (applyDocumentationFixes content filePath issues options).1.results,
      severityLevels options.severityThreshold ≤ severityLevels r.issue.severity) ∧
    ((applyDocumentationFixes content filePath issues options).1.results.map
        (fun r => r.issue)).Perm
      (issues.filter (fun issue =>
        severityLevels options.severityThreshold ≤ severityLevels issue.severity)) ∧
    List.Pairwise
      (fun a b => severityLevels b.issue.severity ≤ severityLevels a.issue.severity)
      (applyDocumentationFixes content filePath issues options).1.results ∧
    ((issues.countP (fun i => i.severity = .high) = 1 ∧
      issues.countP (fun i => i.severity = .medium) = 2 ∧
      issues.countP (fun i => i.severity = .low) = 0 ∧
      options.severityThreshold = .high) →
      (applyDocumentationFixes content filePath issues options).1.results.length = 1 ∧
      (applyDocumentationFixes content filePath issues options).1.fixesApplied ≤ 1) := by
  have hmap : (applyDocumentationFixes content filePath issues options).1.results.map
      (fun r => r.issue) =
      stableSort (fun a b => severityLevels b.severity ≤ severityLevels a.severity)
        (issues.filter (fun issue =>
          severityLevels options.severityThreshold ≤ severityLevels issue.severity)) := by
    simp only [applyDocumentationFixes]
    exact applyFixesLoop_map_issue _ _ _
  have hperm : ((applyDocumentationFixes content filePath issues options).1.results.map
      (fun r => r.issue)).Perm
      (issues.filter (fun issue =>
        severityLevels options.severityThreshold ≤ severityLevels issue.severity)) := by
    rw [hmap]
    exact stableSort_perm _ _
  refine ⟨?_, hperm, ?_, ?_⟩
  · intro r hr
    have hmem : r.issue ∈ (applyDocumentationFixes content filePath
        issues options).1.results.map (fun r => r.issue) :=
      List.mem_map_of_mem _ hr
    have := hperm.subset hmem
    rw [List.mem_filter] at this
    simpa using this.2
  · have hsorted := pairwise_stableSort
      (fun (a b : DocumentationIssue) =>
        decide (severityLevels b.severity ≤ severityLevels a.severity))
      (fun a b c hab hbc => by
        simp only [decide_eq_true_eq] at *
        omega)
      (fun a b => by
        by_cases h : severityLevels b.severity ≤ severityLevels a.severity
        · exact Or.inl (by simpa using h)
        · exact Or.inr (by simp; omega))
      (issues.filter (fun issue =>
        severityLevels options.severityThreshold ≤ severityLevels issue.severity))
    rw [← hmap] at hsorted
    rw [List.pairwise_map] at hsorted
    exact hsorted.imp (fun h => by simpa using h)
  · intro ⟨hH, hM, hL, hth⟩
    have hcount : issues.countP (fun issue =>
        severityLevels options.severityThreshold ≤ severityLevels issue.severity) = 1 := by
      rw [hth]
      have : issues.countP (fun issue =>
          severityLevels Severity.high ≤ severityLevels issue.severity) =
          issues.countP (fun i => i.severity = .high) := by
        apply List.countP_congr
        intro a _
        cases ha : a.severity <;> simp [severityLevels, ha]
      rw [this, hH]
    have hlen : (applyDocumentationFixes content filePath
        issues options).1.results.length = 1 := by
      have := congrArg List.length hmap
      rw [List.length_map, stableSort_length, ← List.countP_eq_length_filter] at this
      rw [this, hcount]
    refine ⟨hlen, ?_⟩
    have hle : (applyDocumentationFixes content filePath
        issues options).1.fixesApplied ≤
        (applyDocumentationFixes content filePath issues options).1.results.length := by
      simp only [applyDocumentationFixes]
      exact List.length_filter_le _ _
    omega

/-! ## Claim C5 -/

/-- C5 (counterexample): JS `String.replace` with a string pattern replaces
only the first occurrence, so when the bracketed description placeholder
occurs twice, the literal placeholder string still appears in the output. -/
theorem removePlaceholder_double_occurrence_remains :
    containsStr
      (removePlaceholderContent
        (str "[brief description of the directory's purpose] and [brief description of the directory's purpose]")
        (mkIssue .medium .placeholderContent .removePlaceholder
          (some (str "[brief description of the directory's purpose]"))))
      (str "[brief description of the directory's purpose]") = true := by
  decide

/-- C5 (amended): for a bracketed description placeholder the FIRST
occurrence is replaced in place by the "Content to be documented" marker
(later occurrences are left); otherwise every line containing the target is
deleted and all other lines are left unchanged. -/
theorem removePlaceholderContent_spec (a b target : Str)
    (issue : DocumentationIssue)
    (htarget : issue.suggestedFix.target = some target) :
    (hasStart target (str "[") = true →
      containsStr target (str "description") = true →
      (∀ j < a.length, ¬ hasStart ((a ++ target ++ b).drop j) target = true) →
      removePlaceholderContent (a ++ target ++ b) issue =
        a ++ str "Content to be documented" ++ b) ∧
    (¬ (hasStart target (str "[") = true ∧
        containsStr target (str "description") = true) →
      ∀ content : Str,
        (splitLines content).filter (fun line => ¬ containsStr line target) ≠ [] →
        splitLines (removePlaceholderContent content issue) =
          (splitLines content).filter (fun line => ¬ containsStr line target)) := by
  constructor
  · intro hbr hdesc hno
    simp only [removePlaceholderContent, htarget, Option.getD_some]
    rw [if_pos ⟨hbr, hdesc⟩]
    exact replaceFirst_spec target (str "Content to be documented") a b hno
  · intro hnot content hne
    simp only [removePlaceholderContent, htarget, Option.getD_some]
    rw [if_neg hnot]
    exact splitLines_joinLines _ hne
      (fun l hl => newline_not_mem_splitLines content l (List.mem_of_mem_filter hl))

/-- C5 (witness): the spec theorem applied at a concrete document where a
bracketed description placeholder occurs once, and at a stale-filename target
deleting one of two lines. -/
theorem removePlaceholderContent_spec_witness :
    removePlaceholderContent (str "x " ++ str "[a description]" ++ str " y")
      (mkIssue .medium .placeholderContent .removePlaceholder
        (some (str "[a description]"))) =
      str "x " ++ str "Content to be documented" ++ str " y" ∧
    splitLines (removePlaceholderContent (str "keep\nold.ts gone")
      (mkIssue .medium .missingFiles .removePlaceholder (some (str "old.ts")))) =
      [str "keep"] := by
  constructor
  · exact (removePlaceholderContent_spec (str "x ") (str " y") (str "[a description]")
      (mkIssue .medium .placeholderContent .removePlaceholder
        (some (str "[a description]"))) rfl).1 (by decide) (by decide) (by decide)
  · have h := (removePlaceholderContent_spec [] [] (str "old.ts")
      (mkIssue .medium .missingFiles .removePlaceholder (some (str "old.ts")))
      rfl).2 (by decide) (str "keep\nold.ts gone") (by decide)
    rw [h]
    decide

/-! ## Claim C6 -/

/-- C6 (counterexample): the filesystem oracle's suggestion matches on the
full base name (extension included), so for a missing `config.json` in a
directory containing only `config.yaml` the reported `missing_file` issue
carries the generic fallback suggestion — it does not mention
`config.yaml`. -/
theorem validateFileReference_config_yaml_not_suggested :
    validateFileReference (str "config.json") .file none [str "config.yaml"] =
      [{ type := .missingFile, severity := .error
         message := str "File not found: " ++ str "config.json"
         suggestion := some (str "Check if the file path is correct and the file exists.") }] ∧
    containsStr (str "Check if the file path is correct and the file exists.")
      (str "config.yaml") = false := by
  decide

/-- C6 (amended): the suggestion is computed from the sibling-directory
listing by a case-insensitive substring match in either direction on the
full base name (the extension is NOT ignored): when no name matches, the
generic fallback message is returned, and each of the first three matches
appears verbatim in the suggestion. -/
theorem suggestFileAlternatives_spec (files : List Str) (fileName : Str) :
    (files.filter (fun file =>
        containsStr (toLowerStr file) (toLowerStr fileName) ||
        containsStr (toLowerStr fileName) (toLowerStr file)) = [] →
      suggestFileAlternatives files fileName =
        str "Check if the file path is correct and the file exists.") ∧
    (∀ f ∈ (files.filter (fun file =>
        containsStr (toLowerStr file) (toLowerStr fileName) ||
        containsStr (toLowerStr fileName) (toLowerStr file))).take 3,
      containsStr (suggestFileAlternatives files fileName) f = true) := by
  constructor
  · intro hempty
    simp only [suggestFileAlternatives, hempty]
    rfl
  · intro f hf
    have hmem : f ∈ files.filter (fun file =>
        containsStr (toLowerStr file) (toLowerStr fileName) ||
        containsStr (toLowerStr fileName) (toLowerStr file)) :=
      (List.take_sublist 3 _).subset hf
    have hne : files.filter (fun file =>
        containsStr (toLowerStr file) (toLowerStr fileName) ||
        containsStr (toLowerStr fileName) (toLowerStr file)) ≠ [] := by
      intro hcon
      rw [hcon] at hmem
      cases hmem
    simp only [suggestFileAlternatives]
    rw [if_pos hne]
    rw [show (str "Did you mean: " ++
        joinWith (str ", ") ((files.filter (fun file =>
          containsStr (toLowerStr file) (toLowerStr fileName) ||
          containsStr (toLowerStr fileName) (toLowerStr file))).take 3) ++ str "?") =
        str "Did you mean: " ++
        (joinWith (str ", ") ((files.filter (fun file =>
          containsStr (toLowerStr file) (toLowerStr fileName) ||
          containsStr (toLowerStr fileName) (toLowerStr file))).take 3) ++ str "?")
      from by rw [List.append_assoc]]
    exact containsStr_right f _ _
      (containsStr_left f _ _ (containsStr_joinWith (str ", ") _ f hf))

/-! ## Claim C8 -/

theorem takeWhileLen (p : Char → Bool) (l : Str) :
    (l.takeWhile p).length ≤ l.length :=
  (List.takeWhile_sublist p).length_le

theorem hasStart_length_le (t : Str) :
    ∀ s : Str, hasStart s t = true → t.length ≤ s.length := by
  induction t with
  | nil => intro s _; simp
  | cons d t' ih =>
    intro s h
    cases s with
    | nil => cases h
    | cons c s' =>
      simp only [hasStart, Bool.and_eq_true] at h
      simpa using ih s' h.2

theorem scanPositions_some {κ : Type} (matchAt : Nat → Option (Nat × κ)) :
    ∀ (fuel σ ms me : Nat) (k : κ),
      scanPositions matchAt fuel σ = some (ms, me, k) →
      σ ≤ ms ∧ matchAt ms = some (me, k) := by
  intro fuel
  induction fuel with
  | zero => intro σ ms me k h; cases h
  | succ f ih =>
    intro σ ms me k h
    simp only [scanPositions] at h
    cases hm : matchAt σ with
    | some r =>
      rw [hm] at h
      obtain ⟨me0, k0⟩ := r
      injection h with h1
      injection h1 with h2 h3
      subst h2
      injection h3 with h4 h5
      subst h4
      subst h5
      exact ⟨Nat.le_refl _, hm⟩
    | none =>
      rw [hm] at h
      have := ih (σ + 1) ms me k h
      exact ⟨by omega, this.2⟩

theorem findFromM_width {κ : Type} (matchAt : Nat → Option (Nat × κ)) (n : Nat)
    (hm : ∀ σ me k, matchAt σ = some (me, k) → σ < me ∧ me ≤ n) :
    ∀ p ms me k, findFromM matchAt n p = some (ms, me, k) →
      p ≤ ms ∧ ms < me ∧ me ≤ n := by
  intro p ms me k h
  have := scanPositions_some matchAt (n + 1 - p) p ms me k h
  have h2 := hm ms me k this.2
  exact ⟨this.1, h2.1, h2.2⟩

theorem execLoop_stable {κ : Type} (findFrom : Nat → Option (Nat × Nat × κ)) (n : Nat)
    (hw : ∀ p ms me k, findFrom p = some (ms, me, k) → p ≤ ms ∧ ms < me ∧ me ≤ n) :
    ∀ fuel li, n + 1 - li ≤ fuel →
      execLoop findFrom fuel li = execLoop findFrom (n + 1 - li) li := by
  intro fuel
  induction fuel using Nat.strong_induction_on with
  | _ fuel IH =>
    intro li hle
    cases fuel with
    | zero =>
      have h0 : n + 1 - li = 0 := Nat.le_zero.mp hle
      rw [h0]
    | succ f =>
      cases hf : findFrom li with
      | none =>
        simp only [execLoop, hf]
        cases hn : n + 1 - li with
        | zero => rfl
        | succ m => simp only [execLoop, hf]
      | some t =>
        obtain ⟨ms, me, k⟩ := t
        obtain ⟨h1, h2, h3⟩ := hw li ms me k hf
        have hn : n + 1 - li = (n - li) + 1 := by omega
        rw [hn]
        simp only [execLoop, hf]
        have e1 : execLoop findFrom f me = execLoop findFrom (n + 1 - me) me :=
          IH f (Nat.lt_succ_self f) me (by omega)
        have e2 : execLoop findFrom (n - li) me = execLoop findFrom (n + 1 - me) me :=
          IH (n - li) (by omega) me (by omega)
        rw [e1, e2]

theorem matchMarkdownLink_width :
    ∀ (s : Str) (c : Nat) (k : Str × Str),
      matchMarkdownLink s = some (c, k) → 1 ≤ c ∧ c ≤ s.length := by
  intro s c k h
  cases s with
  | nil => cases h
  | cons c0 rest =>
    simp only [matchMarkdownLink] at h
    split at h
    · rename_i heq
      injection heq with hc0 hrest
      subst hrest
      split at h
      · rename_i rest3 hdrop
        split at h
        · cases h
        · rename_i htarget
          split at h
          · rename_i hdrop2
            injection h with h1
            injection h1 with h2 h3
            subst h2
            have e1 : (rest.takeWhile (fun c => ¬ c = ']')).length ≤ rest.length :=
              takeWhileLen _ _
            have e2 : (rest.drop (rest.takeWhile (fun c => ¬ c = ']')).length).length =
                rest.length - (rest.takeWhile (fun c => ¬ c = ']')).length := by
              rw [List.length_drop]
            rw [hdrop] at e2
            have e3 : (rest3.takeWhile (fun c => ¬ c = ')')).length ≤ rest3.length :=
              takeWhileLen _ _
            have e4 : (rest3.drop (rest3.takeWhile (fun c => ¬ c = ')')).length).length =
                rest3.length - (rest3.takeWhile (fun c => ¬ c = ')')).length := by
              rw [List.length_drop]
            rw [hdrop2] at e4
            simp only [List.length_cons] at e2 e4 ⊢
            omega
          · cases h
      · cases h
    · cases h

theorem matchCodeSpan_width :
    ∀ (s : Str) (c : Nat) (k : Str),
      matchCodeSpan s = some (c, k) → 1 ≤ c ∧ c ≤ s.length := by
  intro s c k h
  cases s with
  | nil => cases h
  | cons c0 rest =>
    simp only [matchCodeSpan] at h
    split at h
    · split at h
      · cases h
      · split at h
        · rename_i d drest hdrop
          injection h with h1
          injection h1 with h2 h3
          subst h2
          have e1 : (rest.takeWhile (fun d => ¬ d = backtickChar)).length ≤ rest.length :=
            takeWhileLen _ _
          have e2 : (rest.drop (rest.takeWhile (fun d => ¬ d = backtickChar)).length).length =
              rest.length - (rest.takeWhile (fun d => ¬ d = backtickChar)).length := by
            rw [List.length_drop]
          rw [hdrop] at e2
          simp only [List.length_cons] at e2 ⊢
          omega
        · cases h
    · cases h

theorem tryMunch_bound (next : Str → Option Nat)
    (hnext : ∀ s m, next s = some m → m ≤ s.length) (cs : Str) :
    ∀ (kk r : Nat), tryMunch next cs kk = some r → kk ≤ cs.length →
      1 ≤ r ∧ r ≤ cs.length := by
  intro kk
  induction kk with
  | zero => intro r h _; cases h
  | succ k ih =>
    intro r h hk
    simp only [tryMunch] at h
    cases hn : next (cs.drop (k + 1)) with
    | some m =>
      rw [hn] at h
      injection h with h1
      have := hnext _ m hn
      rw [List.length_drop] at this
      omega
    | none =>
      rw [hn] at h
      exact ih r h (by omega)

theorem parseStarF_bound :
    ∀ (fuel : Nat) (cs : Str) (m : Nat), parseStarF fuel cs = some m → m ≤ cs.length := by
  intro fuel
  induction fuel with
  | zero => intro cs m h; cases h
  | succ f ih =>
    intro cs m h
    cases cs with
    | nil =>
      simp only [parseStarF] at h
      split at h
      · injection h with h1
        omega
      · cases h
    | cons c0 cs0 =>
      simp only [parseStarF] at h
      by_cases hc : c0 = '/'
      · rw [if_pos hc] at h
        cases ht : tryMunch (fun s => parseStarF f s) cs0
            (cs0.takeWhile (fun c => isDirWordChar c)).length with
        | some r =>
          simp only [ht, Option.some.injEq] at h
          have := tryMunch_bound (fun s => parseStarF f s) (fun s m hm => ih s m hm)
            cs0 _ r ht (takeWhileLen _ _)
          simp only [List.length_cons]
          omega
        | none =>
          simp only [ht] at h
          split at h
          · injection h with h1
            simp only [List.length_cons]
            omega
          · split at h
            · injection h with h1
              omega
            · cases h
      · rw [if_neg hc] at h
        split at h
        · injection h with h1
          omega
        · cases h

theorem parseDirCapture_bound (cs : Str) (kk : Nat)
    (h : parseDirCapture cs = some kk) : 1 ≤ kk ∧ kk ≤ cs.length := by
  exact tryMunch_bound (fun s => parseStarF (cs.length + 1) s)
    (fun s m hm => parseStarF_bound _ s m hm) cs _ kk h
    (takeWhileLen _ _)

theorem withLinePrefix_width {κ : Type} (parseAt : Nat → Option (Nat × κ))
    (line : Str)
    (hp : ∀ q me k, parseAt q = some (me, k) → q < me ∧ me ≤ line.length) :
    ∀ σ me k, withLinePrefix parseAt line σ = some (me, k) →
      σ < me ∧ me ≤ line.length := by
  intro σ me k h
  simp only [withLinePrefix] at h
  split at h
  · rename_i r hr
    split at hr
    · rename_i hσ
      subst hσ
      injection h with h1
      subst h1
      have := hp 0 me k hr
      omega
    · cases hr
  · split at h
    · rename_i c crest hdrop
      split at h
      · have := hp (σ + 1) me k h
        omega
      · cases h
    · cases h

theorem matchMarkdownLinkAt_width (line : Str) :
    ∀ σ me k, matchMarkdownLinkAt line σ = some (me, k) →
      σ < me ∧ me ≤ line.length := by
  intro σ me k h
  simp only [matchMarkdownLinkAt, Option.map_eq_some'] at h
  obtain ⟨⟨c, k0⟩, hm, heq⟩ := h
  injection heq with h1 h2
  subst h1
  have := matchMarkdownLink_width _ c k0 hm
  rw [List.length_drop] at this
  have hne : 1 ≤ (line.drop σ).length := by
    rw [List.length_drop]
    omega
  rw [List.length_drop] at hne
  omega

theorem matchCodeSpanAt_width (line : Str) :
    ∀ σ me k, matchCodeSpanAt line σ = some (me, k) →
      σ < me ∧ me ≤ line.length := by
  intro σ me k h
  simp only [matchCodeSpanAt, Option.map_eq_some'] at h
  obtain ⟨⟨c, k0⟩, hm, heq⟩ := h
  injection heq with h1 h2
  subst h1
  have := matchCodeSpan_width _ c k0 hm
  rw [List.length_drop] at this
  omega

theorem matchDirAt_width (line : Str) :
    ∀ σ me k, matchDirAt line σ = some (me, k) → σ < me ∧ me ≤ line.length := by
  refine withLinePrefix_width _ line ?_
  intro q me k h
  cases hc : parseDirCapture (line.drop q) with
  | none => rw [hc] at h; cases h
  | some kk =>
    rw [hc] at h
    injection h with h1
    injection h1 with h2 h3
    subst h2
    have := parseDirCapture_bound _ kk hc
    rw [List.length_drop] at this
    omega

theorem matchCommonLit_mem :
    ∀ (lits : List Str) (cs lit : Str), matchCommonLit lits cs = some lit →
      lit ∈ lits ∧ hasStart cs lit = true := by
  intro lits
  induction lits with
  | nil => intro cs lit h; cases h
  | cons l ls ih =>
    intro cs lit h
    simp only [matchCommonLit] at h
    split at h
    · injection h with h1
      subst h1
      rename_i hst
      exact ⟨List.mem_cons_self _ _, hst⟩
    · have := ih cs lit h
      exact ⟨List.mem_cons_of_mem _ this.1, this.2⟩

theorem matchCommonAt0_width :
    ∀ (cs : Str) (c : Nat) (k : Str),
      matchCommonAt0 cs = some (c, k) → 1 ≤ c ∧ c ≤ cs.length := by
  intro cs c k h
  simp only [matchCommonAt0] at h
  cases hl : matchCommonLit commonFileNames cs with
  | none =>
    simp only [hl] at h
    exact Option.noConfusion h
  | some lit =>
    simp only [hl] at h
    obtain ⟨hmem, hst⟩ := matchCommonLit_mem _ cs lit hl
    have hlen : lit.length ≤ cs.length := hasStart_length_le lit cs hst
    have hpos : 1 ≤ lit.length := by
      have hall : ∀ l ∈ commonFileNames, 1 ≤ l.length := by decide
      exact hall lit hmem
    cases hdrop : cs.drop lit.length with
    | nil =>
      simp only [hdrop] at h
      injection h with h1
      injection h1 with h2 h3
      omega
    | cons d ds =>
      simp only [hdrop] at h
      have hlt : lit.length < cs.length := by
        have := congrArg List.length hdrop
        rw [List.length_drop, List.length_cons] at this
        omega
      split at h
      · injection h with h1
        injection h1 with h2 h3
        omega
      · injection h with h1
        injection h1 with h2 h3
        omega

theorem matchCommonAt_width (line : Str) :
    ∀ σ me k, matchCommonAt line σ = some (me, k) → σ < me ∧ me ≤ line.length := by
  refine withLinePrefix_width _ line ?_
  intro q me k h
  simp only [Option.map_eq_some'] at h
  obtain ⟨⟨c, k0⟩, hm, heq⟩ := h
  injection heq with h1 h2
  subst h1
  have := matchCommonAt0_width _ c k0 hm
  rw [List.length_drop] at this
  omega

theorem execLoop_pass_stable {κ : Type} (matchAt : Nat → Option (Nat × κ))
    (n : Nat) (hm : ∀ σ me k, matchAt σ = some (me, k) → σ < me ∧ me ≤ n)
    (fuel : Nat) (hfuel : n + 1 ≤ fuel) :
    execLoop (findFromM matchAt n) fuel 0 =
      execLoop (findFromM matchAt n) (n + 1) 0 := by
  have hw := findFromM_width matchAt n hm
  have e1 := execLoop_stable (findFromM matchAt n) n hw fuel 0 (by omega)
  have e2 := execLoop_stable (findFromM matchAt n) n hw (n + 1) 0 (by omega)
  rw [e1, e2]

theorem extractLineRefsF_fuel (sourceFile : Str) (i : Nat) (line : Str)
    (fuel : Nat) (h : line.length + 1 ≤ fuel) :
    extractLineRefsF sourceFile fuel i line =
      extractLineRefsF sourceFile (line.length + 1) i line := by
  simp only [extractLineRefsF, linkRefsOfLine, codeRefsOfLine, dirRefsOfLine,
    commonRefsOfLine]
  rw [execLoop_pass_stable (matchMarkdownLinkAt line) line.length
      (matchMarkdownLinkAt_width line) fuel h,
    execLoop_pass_stable (matchCodeSpanAt line) line.length
      (matchCodeSpanAt_width line) fuel h,
    execLoop_pass_stable (matchDirAt line) line.length
      (matchDirAt_width line) fuel h,
    execLoop_pass_stable (matchCommonAt line) line.length
      (matchCommonAt_width line) fuel h]

theorem extractLinesF_eq (sourceFile : Str) (fuel : Nat) :
    ∀ (ls : List Str) (i : Nat), (∀ l ∈ ls, l.length + 1 ≤ fuel) →
      extractLinesF sourceFile fuel i ls = extractLines sourceFile i ls := by
  intro ls
  induction ls with
  | nil => intro i _; rfl
  | cons line rest ih =>
    intro i h
    simp only [extractLinesF, extractLines]
    rw [extractLineRefsF_fuel sourceFile i line fuel (h line (List.mem_cons_self _ _)),
      ih (i + 1) (fun l hl => h l (List.mem_cons_of_mem _ hl))]

theorem splitLines_length_le (s : Str) :
    ∀ l ∈ splitLines s, l.length ≤ s.length := by
  induction s with
  | nil =>
    intro l hl
    rw [show splitLines [] = [[]] from rfl, List.mem_singleton] at hl
    subst hl
    exact Nat.le_refl _
  | cons c rest ih =>
    intro l hl
    simp only [splitLines] at hl
    split at hl
    · rcases List.mem_cons.mp hl with rfl | hl'
      · simp
      · have := ih l hl'
        simp only [List.length_cons]
        omega
    · rcases hsp : splitLines rest with _ | ⟨l0, ls0⟩
      · exact absurd hsp (splitLines_ne_nil rest)
      · rw [hsp] at hl
        rcases List.mem_cons.mp hl with rfl | hl'
        · have : l0 ∈ splitLines rest := by rw [hsp]; exact List.mem_cons_self _ _
          have := ih l0 this
          simp only [List.length_cons]
          omega
        · have : l ∈ splitLines rest := by rw [hsp]; exact List.mem_cons_of_mem _ hl'
          have := ih l this
          simp only [List.length_cons]
          omega

/-- C8: reference extraction is total and deterministic.  The JS extraction
loops advance `lastIndex` by at least one character per match, so any fuel
of at least `content.length + 1` on every exec loop yields the same
reference list as the canonical run — the loops terminate and the result is
a well-defined function of the input.  Malformed markdown (an unclosed
link) yields no references rather than an error. -/
theorem extractFileReferences_total (content sourceFile : Str) (fuel : Nat)
    (h : content.length + 1 ≤ fuel) :
    extractFileReferencesF fuel content sourceFile =
      extractFileReferences content sourceFile ∧
    extractFileReferences (str "[unclosed](paren") (str "doc.md") = [] := by
  constructor
  · simp only [extractFileReferencesF, extractFileReferences]
    rw [extractLinesF_eq sourceFile fuel (splitLines content) 0
      (fun l hl => by
        have := splitLines_length_le content l hl
        omega)]
  · decide

/-- C8 (witness): the totality theorem applied at a concrete document and
fuel bound. -/
theorem extractFileReferences_total_witness :
    extractFileReferencesF 25 (str "See [docs](guide.md)") (str "d.md") =
      extractFileReferences (str "See [docs](guide.md)") (str "d.md") := by
  exact (extractFileReferences_total (str "See [docs](guide.md)") (str "d.md")
    25 (by decide)).1

/-- C7: anchor normalization is idempotent, and the claim's instances:
"API & SDK" and "api-sdk" both normalize to "api-sdk". -/
theorem normalizeAnchor_idempotent :
    (∀ x : Str, normalizeAnchor (normalizeAnchor x) = normalizeAnchor x) ∧
    normalizeAnchor (str "API & SDK") = str "api-sdk" ∧
    normalizeAnchor (str "api-sdk") = str "api-sdk" := by
  refine ⟨?_, by decide, by decide⟩
  intro x
  obtain ⟨hchar, hadj, hstart, hlast⟩ := normalizeAnchor_props x
  exact normalizeAnchor_fixes _ hchar hadj hstart hlast

end Doctool
